import Mathlib

/-!
# Verification of `eqint` (equitable integer budget allocation)

Shallow embedding of `src/eqint/solver.py` (`EquitableBudgetAllocator`) and
`src/eqint/errors.py`.  Machine integers are modelled by `Int` (Python ints are
unbounded, so no wrap-around is needed).  The water level `x`, computed in
Python with float division, is modelled with exact rationals `ℚ`; the spec
explicitly allows the exact-rational reading of the algorithm ("`x*` can be
represented as a rational ... and the distributor can work in exact
arithmetic").  Fallible operations return `Except SolverErr`.
-/

namespace Eqint

/-- A bound: a pair `(lower, upper)` where each side is an optional integer
(`Bound = tuple[int | None, int | None]` in the source). -/
abbrev Bound := Option Int × Option Int

/-- An ordered sequence of bounds (`Bounds = Sequence[Bound]`). -/
abbrev Bounds := List Bound

/-- The error taxonomy of `eqint/errors.py`, plus Python's runtime
`ZeroDivisionError`, which `_solve_x` raises via `budget / len(self.bounds)`
when the bounds sequence is empty. -/
inductive SolverErr where
  | constraintError
  | insufficientBudgetError
  | excessBudgetError
  | zeroDivisionError
deriving DecidableEq

/-- `b[0] is not None and b[1] is not None and b[0] > b[1]`
(the per-bound test of the constraint validation in `__init__`). -/
def boundInvalid (b : Bound) : Bool :=
  match b with
  | (some l, some u) => decide (u < l)
  | _ => false

/-- `sum(b[0] is None for b in self.bounds)`. -/
def nLowerUnbounded (bs : Bounds) : Nat :=
  bs.countP fun b => b.1.isNone

/-- `sum(b[1] is None for b in self.bounds)`. -/
def nUpperUnbounded (bs : Bounds) : Nat :=
  bs.countP fun b => b.2.isNone

/-- `all(b[0] is None and b[1] is None for b in self.bounds)`. -/
def isUnbounded (bs : Bounds) : Bool :=
  bs.all fun b => b.1.isNone && b.2.isNone

/-- The list of present lower-bound values, in slot order. -/
def lowerVals (bs : Bounds) : List Int :=
  bs.filterMap fun b => b.1

/-- The list of present upper-bound values, in slot order. -/
def upperVals (bs : Bounds) : List Int :=
  bs.filterMap fun b => b.2

/-- `self.lower_bound = None if self.n_lower_unbounded else sum(b[0] for b in self.bounds)`.
Note the Python truthiness test on the *count*: the aggregate is present iff no
lower bound is absent (this is the correct `is None`-free side; contrast with
the truthy test on `self.upper_bound` inside `_solve_x`). -/
def lowerBoundAgg (bs : Bounds) : Option Int :=
  if nLowerUnbounded bs = 0 then some (lowerVals bs).sum else none

/-- `self.upper_bound = None if self.n_upper_unbounded else sum(b[1] for b in self.bounds)`. -/
def upperBoundAgg (bs : Bounds) : Option Int :=
  if nUpperUnbounded bs = 0 then some (upperVals bs).sum else none

/-- The unsorted event list
`chain(((b[0], False) for b in bounds if b[0] is not None),
       ((b[1], True) for b in bounds if b[1] is not None))`:
one `(value, is_upper_bound)` pair per present bound side, lower events first. -/
def evList (bs : Bounds) : List (Int × Bool) :=
  (bs.filterMap fun b => b.1.map fun l => (l, false)) ++
    (bs.filterMap fun b => b.2.map fun u => (u, true))

/-- Ordering of events by `(value, is_upper_bound)` with `false < true`.
`flat_bounds` uses Python's `sorted(..., key=itemgetter(0))`, which is *stable*
and keys only on the value; since `evList` lists all lower events (flag
`false`) before all upper events (flag `true`), and events of equal value and
equal flag are identical pairs, the stable value-sort of `evList` is exactly
its sort by this lexicographic order. -/
def evLe (a b : Int × Bool) : Prop :=
  a.1 < b.1 ∨ (a.1 = b.1 ∧ (a.2 = true → b.2 = true))

instance : DecidableRel evLe := fun a b => by
  unfold evLe; infer_instance

instance : IsTotal (Int × Bool) evLe := by
  constructor
  intro a b
  rcases lt_trichotomy a.1 b.1 with h | h | h
  · exact Or.inl (Or.inl h)
  · cases ha : a.2 <;> cases hb : b.2
    · exact Or.inl (Or.inr ⟨h, by simp [ha]⟩)
    · exact Or.inl (Or.inr ⟨h, by simp [hb]⟩)
    · exact Or.inr (Or.inr ⟨h.symm, by simp [hb]⟩)
    · exact Or.inl (Or.inr ⟨h, by simp [hb]⟩)
  · exact Or.inr (Or.inl h)

instance : IsTrans (Int × Bool) evLe := by
  constructor
  intro a b c hab hbc
  rcases hab with h1 | ⟨h1, h1'⟩ <;> rcases hbc with h2 | ⟨h2, h2'⟩
  · exact Or.inl (h1.trans h2)
  · exact Or.inl (h2 ▸ h1)
  · exact Or.inl (h1 ▸ h2)
  · exact Or.inr ⟨h1.trans h2, fun h => h2' (h1' h)⟩

/-- `flat_bounds`: the event list sorted ascending by value, ties `LOWER`
before `UPPER` (see `evLe` for why this equals the source's stable sort). -/
def flatBounds (bs : Bounds) : List (Int × Bool) :=
  (evList bs).insertionSort evLe

/-- Insertion into a Python `dict` viewed as an association list in insertion
order: assigning to an existing key overwrites its value in place (the key
keeps its position), assigning a fresh key appends it at the end. -/
def dictInsert {α : Type} : List (Int × α) → Int → α → List (Int × α)
  | [], k, v => [(k, v)]
  | (k', v') :: rest, k, v =>
    if k' = k then (k, v) :: rest else (k', v') :: dictInsert rest k v

/-- The sweep loop of `_solve_table` (pass over `flat_bounds`): accumulates the
running `budget` (sum of crossed lower bounds), the running `rate`, and the
intermediary dict `r_table : x ↦ rate`.  Initial state is
`budget = 0`, `rate = n_lower_unbounded`, `r_table = {}`. -/
def passB : List (Int × Bool) → Int → Int → List (Int × Int) → Int × List (Int × Int)
  | [], budget, _, r => (budget, r)
  | (x, isUp) :: es, budget, rate, r =>
    if isUp then
      passB es budget (rate - 1) (dictInsert r x (rate - 1))
    else
      passB es (budget + x) (rate + 1) (dictInsert r x (rate + 1))

/-- The intermediary `r_table` of `_solve_table`. -/
def rTable (bs : Bounds) : List (Int × Int) :=
  (passB (flatBounds bs) 0 (nLowerUnbounded bs : Int) []).2

/-- The value of the `budget` accumulator after the sweep loop (the sum of all
present lower bounds, since every `LOWER` event adds its value). -/
def bLowerSum (bs : Bounds) : Int :=
  (passB (flatBounds bs) 0 (nLowerUnbounded bs : Int) []).1

/-- The second loop of `_solve_table`: folds `r_table` into the dict
`x_table : budget ↦ (x, rate)`, starting from `prev_x = 0`,
`prev_rate = n_lower_unbounded` and the `budget` accumulated by the sweep. -/
def passC : List (Int × Int) → Int → Int → Int → List (Int × Int × Int) → List (Int × Int × Int)
  | [], _, _, _, xt => xt
  | (x, rate) :: rs, budget, prevX, prevRate, xt =>
    passC rs (budget + (x - prevX) * prevRate) x rate
      (dictInsert xt (budget + (x - prevX) * prevRate) (x, rate))

/-- The `x_table` dict of `_solve_table`, as an association list in insertion
order. -/
def xTable (bs : Bounds) : List (Int × Int × Int) :=
  passC (rTable bs) (bLowerSum bs) 0 (nLowerUnbounded bs : Int) []

/-- `_solve_table`'s return value `(tuple(x_table.keys()), tuple(x_table.values()))`. -/
def solveTable (bs : Bounds) : List Int × List (Int × Int) :=
  ((xTable bs).map fun e => e.1, (xTable bs).map fun e => e.2)

/-- The allocator object: the fields assigned by
`EquitableBudgetAllocator.__init__` after constraint validation. -/
structure EquitableBudgetAllocator where
  bounds : Bounds
  n_lower_unbounded : Nat
  n_upper_unbounded : Nat
  is_unbounded : Bool
  lower_bound : Option Int
  upper_bound : Option Int
  table : List Int × List (Int × Int)
deriving DecidableEq

/-- The field values computed by `__init__` (after its validation check). -/
def mkAllocator (bs : Bounds) : EquitableBudgetAllocator where
  bounds := bs
  n_lower_unbounded := nLowerUnbounded bs
  n_upper_unbounded := nUpperUnbounded bs
  is_unbounded := isUnbounded bs
  lower_bound := lowerBoundAgg bs
  upper_bound := upperBoundAgg bs
  table := solveTable bs

/-- `EquitableBudgetAllocator(bounds)`: raises `ConstraintError` iff some bound
has both sides present with `lower > upper`, otherwise builds the allocator. -/
def construct (bs : Bounds) : Except SolverErr EquitableBudgetAllocator :=
  if bs.any boundInvalid then .error .constraintError else .ok (mkAllocator bs)

/-- `bisect_right(keys, budget)`: for a sorted `keys` this is the count of
entries `≤ budget` (the insertion point to the right of existing entries);
on the sorted key tuple it equals the length of the maximal `≤ budget`
prefix. -/
def bisectRight (keys : List Int) (budget : Int) : Nat :=
  (keys.takeWhile fun k => decide (k ≤ budget)).length

/-- The truthy guard `self.upper_bound and budget > self.upper_bound` of
`_solve_x`: `None` and `0` are falsy, so the comparison is skipped whenever
the aggregate upper bound is absent *or equal to zero*. -/
def upperTruthy (ub : Option Int) (budget : Int) : Bool :=
  match ub with
  | some u => decide (u ≠ 0) && decide (u < budget)
  | none => false

/-- `x if not rate else x + (budget - budget_start) / rate` (float division in
the source, exact rational division here). -/
def solveXFormula (x rate budget budgetStart : Int) : ℚ :=
  if rate = 0 then (x : ℚ) else (x : ℚ) + ((budget - budgetStart : Int) : ℚ) / (rate : ℚ)

/-- `_solve_x`: the continuous solver.  Returns the water level `x` and the
rate (count of non-binding constraints), or a budget error.  The empty-bounds
case hits Python's `ZeroDivisionError` in `budget / len(self.bounds)`. -/
def solveX (A : EquitableBudgetAllocator) (budget : Int) : Except SolverErr (ℚ × Int) :=
  if A.is_unbounded then
    if A.bounds.length = 0 then .error .zeroDivisionError
    else .ok ((budget : ℚ) / (A.bounds.length : ℚ), (A.bounds.length : Int))
  else
    let keys := A.table.1
    let values := A.table.2
    let budgetKey : Int := (bisectRight keys budget : Int) - 1
    if budgetKey < 0 then
      if A.lower_bound.isSome then .error .insufficientBudgetError
      else
        let x := (values.getD 0 (0, 0)).1
        let rate : Int := (A.n_lower_unbounded : Int)
        .ok (solveXFormula x rate budget (keys.getD 0 0), rate)
    else if upperTruthy A.upper_bound budget then .error .excessBudgetError
    else
      let k := budgetKey.toNat
      let x := (values.getD k (0, 0)).1
      let rate := (values.getD k (0, 0)).2
      .ok (solveXFormula x rate budget (keys.getD k 0), rate)

/-- The first branch test of the conditional expression in `allocations` /
`_integer_allocations`: `b[0] is not None and x < b[0]`. -/
def lowerHit (b : Bound) (x : ℚ) : Bool :=
  match b.1 with
  | some l => decide (x < (l : ℚ))
  | none => false

/-- The second branch test: `b[1] is not None and x > b[1]`. -/
def upperHit (b : Bound) (x : ℚ) : Bool :=
  match b.2 with
  | some u => decide ((u : ℚ) < x)
  | none => false

/-- `allocations(x)`: each slot yields its lower bound if `x` is below it, its
upper bound if `x` is above it, and `x` itself otherwise. -/
def allocationsCont (bs : Bounds) (x : ℚ) : List ℚ :=
  bs.map fun b =>
    if lowerHit b x then ((b.1.getD 0 : Int) : ℚ)
    else if upperHit b x then ((b.2.getD 0 : Int) : ℚ)
    else x

/-- Python 3 `round` on an exact rational: round half to even.  (`Rat.floor`
is the computable floor from Batteries; `ratFloor_eq` below identifies it with
`Int.floor`.) -/
def pyRound (q : ℚ) : Int :=
  if q - q.floor < 1 / 2 then q.floor
  else if 1 / 2 < q - q.floor then q.floor + 1
  else if q.floor % 2 = 0 then q.floor else q.floor + 1

/-- The generator loop of `_integer_allocations` with the running
`itertools.count` counter `c`: non-binding slots receive `floor_x` while the
counter is below `n_floored`, then `ceil_x` (the counter advances only on
non-binding slots, since `next(counter)` sits in the final branch of the
conditional expression). -/
def intAllocGo (x : ℚ) (nFloored floorX ceilX : Int) : List Bound → Int → List Int
  | [], _ => []
  | b :: rest, c =>
    if lowerHit b x then b.1.getD 0 :: intAllocGo x nFloored floorX ceilX rest c
    else if upperHit b x then b.2.getD 0 :: intAllocGo x nFloored floorX ceilX rest c
    else (if c < nFloored then floorX else ceilX) :: intAllocGo x nFloored floorX ceilX rest (c + 1)

/-- `_integer_allocations(x, n_nonbinding)`:
`n_floored = round(n_nonbinding * (ceil(x) - x))`, then distribute floors and
ceils over the non-binding slots. -/
def integerAllocations (bs : Bounds) (x : ℚ) (nNonbinding : Int) : List Int :=
  let floorX := x.floor
  let ceilX := x.ceil
  let nFloored := pyRound ((nNonbinding : ℚ) * ((ceilX : ℚ) - x))
  intAllocGo x nFloored floorX ceilX bs 0

/-- `solve(budget, integer=True)` on a constructed allocator. -/
def solveIntA (A : EquitableBudgetAllocator) (budget : Int) : Except SolverErr (List Int) :=
  match solveX A budget with
  | .error e => .error e
  | .ok (x, rate) => .ok (integerAllocations A.bounds x rate)

/-- `solve(budget, integer=False)` on a constructed allocator. -/
def solveContA (A : EquitableBudgetAllocator) (budget : Int) : Except SolverErr (List ℚ) :=
  match solveX A budget with
  | .error e => .error e
  | .ok (x, _) => .ok (allocationsCont A.bounds x)

/-- The module-level `solve(bounds, budget)` (integer mode, the default):
construct the allocator, then solve. -/
def solve (bs : Bounds) (budget : Int) : Except SolverErr (List Int) :=
  match construct bs with
  | .error e => .error e
  | .ok A => solveIntA A budget

/-- The returned values not pinned to their lower bound,
`H = { a_i : l_i absent or a_i > l_i }` (as in the spec's equitability
invariant and the repository's `integers_optimal` test helper). -/
def nonLowerPinned (bs : Bounds) (as : List Int) : List Int :=
  ((bs.zip as).filter fun p =>
    match p.1.1 with
    | none => true
    | some l => decide (l < p.2)).map fun p => p.2

/-- The returned values not pinned to their upper bound,
`L = { a_i : u_i absent or a_i < u_i }`. -/
def nonUpperPinned (bs : Bounds) (as : List Int) : List Int :=
  ((bs.zip as).filter fun p =>
    match p.1.2 with
    | none => true
    | some u => decide (p.2 < u)).map fun p => p.2

/-! ## Basic helper lemmas -/

instance {ε α : Type} [DecidableEq ε] [DecidableEq α] : DecidableEq (Except ε α) := fun a b =>
  match a, b with
  | .error e, .error e' =>
    if h : e = e' then .isTrue (by rw [h]) else .isFalse (by intro hh; cases hh; exact h rfl)
  | .ok x, .ok y =>
    if h : x = y then .isTrue (by rw [h]) else .isFalse (by intro hh; cases hh; exact h rfl)
  | .error _, .ok _ => .isFalse (by intro hh; cases hh)
  | .ok _, .error _ => .isFalse (by intro hh; cases hh)

/-- `boundInvalid` unfolded to an existential. -/
theorem boundInvalid_iff (b : Bound) :
    boundInvalid b = true ↔ ∃ l u, b.1 = some l ∧ b.2 = some u ∧ u < l := by
  rcases b with ⟨_ | l, _ | u⟩ <;> simp [boundInvalid]

/-- Batteries' computable `Rat.floor` is the mathematical floor. -/
theorem ratFloor_eq (q : ℚ) : q.floor = ⌊q⌋ :=
  (Rat.floor_def' q).trans Rat.floor_def.symm

/-- A rational that is not its own floor has `⌈q⌉ = ⌊q⌋ + 1`. -/
theorem ceil_eq_floor_add_one_of_ne (r : ℚ) (h : (⌊r⌋ : ℚ) ≠ r) : ⌈r⌉ = ⌊r⌋ + 1 := by
  have h1 : ⌈r⌉ ≤ ⌊r⌋ + 1 := Int.ceil_le_floor_add_one r
  have h2 : ⌊r⌋ < ⌈r⌉ := by
    have hf : (⌊r⌋ : ℚ) < r := lt_of_le_of_ne (Int.floor_le r) h
    have hc : r ≤ (⌈r⌉ : ℚ) := Int.le_ceil r
    exact_mod_cast hf.trans_le hc
  omega

/-- Batteries' computable `Rat.ceil` is the mathematical ceiling. -/
theorem ratCeil_eq (q : ℚ) : q.ceil = ⌈q⌉ := by
  unfold Rat.ceil
  by_cases hd : q.den = 1
  · rw [if_pos hd]
    have h : (q.num : ℚ) = q := (Rat.den_eq_one_iff q).mp hd
    calc q.num = ⌈(q.num : ℚ)⌉ := (Int.ceil_intCast q.num).symm
    _ = ⌈q⌉ := by rw [h]
  · rw [if_neg hd]
    have hne : (⌊q⌋ : ℚ) ≠ q := by
      intro hh
      have hd1 : q.den = 1 := by rw [← hh]; exact Rat.den_intCast ⌊q⌋
      exact hd hd1
    rw [ceil_eq_floor_add_one_of_ne q hne, Rat.floor_def]

/-! ## Claim theorems (evaluation-based) -/

unseal Rat.add Rat.mul Rat.sub Rat.inv in
/-- Claim C1 (code bug): exhaustion fails on the code as written.  With bounds
`((None, 0),)` and budget `1`, all upper bounds are present and sum to `0 < 1`,
yet `solve` raises no error (the guard `self.upper_bound and budget > ...`
is skipped because `0` is falsy) and returns `(0,)`, whose sum `0` is not the
budget `1`. -/
theorem C1_exhaustion_code_bug :
    solve [(none, some 0)] 1 = .ok [0] ∧ ([0] : List Int).sum ≠ (1 : Int) :=
  ⟨by decide, by decide⟩

unseal Rat.add Rat.mul Rat.sub Rat.inv in
/-- Claim C2 (code bug): with bounds `((None, 0),)` all upper bounds are
present with `Σ u_i = 0`, and budget `1 > 0`, but `solve` does not raise
`ExcessBudgetError`: the source guards the comparison with the truthy test
`self.upper_bound and budget > self.upper_bound`, which skips it when the
aggregate upper bound is `0`. -/
theorem C2_excess_not_raised_code_bug :
    construct [(none, some 0)] = .ok (mkAllocator [(none, some 0)]) ∧
    (mkAllocator [(none, some 0)]).upper_bound = some 0 ∧
    (0 : Int) < 1 ∧
    solveIntA (mkAllocator [(none, some 0)]) 1 = .ok [0] :=
  ⟨by decide, by decide, by decide, by decide⟩

/-- Claim C10: constructing an allocator from the empty bounds sequence
succeeds and is classified fully unbounded, but every solve call (in either
mode) evaluates `budget / len(self.bounds)` with zero slots and fails with
Python's `ZeroDivisionError` rather than returning an empty vector or one of
the solver's diagnostic errors. -/
theorem C10_empty_bounds_zero_division :
    construct ([] : Bounds) = .ok (mkAllocator []) ∧
    (mkAllocator ([] : Bounds)).is_unbounded = true ∧
    ∀ budget : Int,
      solveIntA (mkAllocator []) budget = .error .zeroDivisionError ∧
      solveContA (mkAllocator []) budget = .error .zeroDivisionError :=
  ⟨rfl, rfl, fun _ => ⟨rfl, rfl⟩⟩

/-- Claim C7: for every bounds sequence, the flattened event list is sorted
ascending by value, and at a shared value no `UPPER` event (flag `true`)
precedes a `LOWER` event (flag `false`) — so along the sweep the rate first
rises with the entering slots and then falls with the leaving slots. -/
theorem C7_flat_bounds_sorted (bs : Bounds) :
    List.Pairwise
      (fun a b : Int × Bool => a.1 < b.1 ∨ (a.1 = b.1 ∧ (a.2 = true → b.2 = true)))
      (flatBounds bs) :=
  List.sorted_insertionSort evLe (evList bs)

/-- Claim C8: construction fails with `ConstraintError` exactly when some
bound has both sides present with `lower > upper`; any other shape is
accepted, and the accepted allocator stores the input bounds sequence
unchanged (in input order). -/
theorem C8_constraint_validation (bs : Bounds) :
    (construct bs = .error .constraintError ↔
      ∃ b ∈ bs, ∃ l u, b.1 = some l ∧ b.2 = some u ∧ u < l) ∧
    ∀ A, construct bs = .ok A → A.bounds = bs := by
  constructor
  · constructor
    · intro hc
      unfold construct at hc
      by_cases h : bs.any boundInvalid = true
      · rcases List.any_eq_true.mp h with ⟨b, hb, hinv⟩
        exact ⟨b, hb, (boundInvalid_iff b).mp hinv⟩
      · rw [if_neg h] at hc
        cases hc
    · intro he
      have h : bs.any boundInvalid = true := by
        rcases he with ⟨b, hb, l, u, h1, h2, h3⟩
        exact List.any_eq_true.mpr ⟨b, hb, (boundInvalid_iff b).mpr ⟨l, u, h1, h2, h3⟩⟩
      unfold construct
      rw [if_pos h]
  · intro A hA
    unfold construct at hA
    by_cases h : bs.any boundInvalid = true
    · rw [if_pos h] at hA
      cases hA
    · rw [if_neg h] at hA
      cases hA
      rfl

/-- Witness for C8 at a concrete accepted input. -/
theorem C8_witness : (mkAllocator [(some 0, some 1)]).bounds = [(some 0, some 1)] :=
  (C8_constraint_validation [(some 0, some 1)]).2 (mkAllocator [(some 0, some 1)]) rfl

unseal Rat.add Rat.mul Rat.sub Rat.inv in
/-- Counterexample to claim C5 as stated: bounds `((None, 0), (1, None))` are
accepted and have two distinct event values (`0` and `1`), but the solution
table has a single entry — the two event values yield the same cumulative
budget `1` (the intervening region has rate `0`), and `x_table` is keyed by
budget, so the second entry overwrites the first. -/
theorem C5_counterexample :
    construct [(none, some 0), (some 1, none)] =
      .ok (mkAllocator [(none, some 0), (some 1, none)]) ∧
    ((flatBounds [(none, some 0), (some 1, none)]).map Prod.fst).dedup.length = 2 ∧
    (solveTable [(none, some 0), (some 1, none)]).1.length = 1 :=
  ⟨by decide, by decide, by decide⟩

unseal Rat.add Rat.mul Rat.sub Rat.inv in
/-- Counterexample to claim C4 as stated: the empty bounds sequence is
accepted and vacuously has all lower bounds present (`Σ l_i = 0`), and the
budget `-1` is below that aggregate lower bound, but `solve` raises Python's
`ZeroDivisionError` (the fully-unbounded shortcut divides by zero slots)
rather than `InsufficientBudgetError`. -/
theorem C4_counterexample :
    construct ([] : Bounds) = .ok (mkAllocator []) ∧
    nLowerUnbounded ([] : Bounds) = 0 ∧
    (-1 : Int) < (lowerVals ([] : Bounds)).sum ∧
    solveIntA (mkAllocator []) (-1) = .error .zeroDivisionError ∧
    solveIntA (mkAllocator []) (-1) ≠ .error .insufficientBudgetError :=
  ⟨by decide, by decide, by decide, by decide, by decide⟩

/-! ## Per-slot analysis of the evaluator and the integer distributor -/

/-- Destructing a successful construction: the allocator is `mkAllocator bs`
and no bound is invalid. -/
theorem construct_ok {bs : Bounds} {A : EquitableBudgetAllocator}
    (hA : construct bs = .ok A) : A = mkAllocator bs ∧ bs.any boundInvalid = false := by
  unfold construct at hA
  by_cases h : bs.any boundInvalid = true
  · rw [if_pos h] at hA
    cases hA
  · rw [if_neg h] at hA
    cases hA
    exact ⟨rfl, Bool.of_not_eq_true h⟩

/-- In an accepted bounds sequence, both-sided bounds satisfy `l ≤ u`. -/
theorem accepted_le {bs : Bounds} (hacc : bs.any boundInvalid = false) :
    ∀ b ∈ bs, ∀ l u, b.1 = some l → b.2 = some u → l ≤ u := by
  intro b hb l u hl hu
  have h := List.any_eq_false.mp hacc b hb
  rcases b with ⟨b1, b2⟩
  cases hl
  cases hu
  simpa [boundInvalid] using h

theorem lowerHit_eq_true {b : Bound} {x : ℚ} (h : lowerHit b x = true) :
    ∃ l, b.1 = some l ∧ x < (l : ℚ) := by
  rcases b with ⟨_ | l, b2⟩
  · simp [lowerHit] at h
  · exact ⟨l, rfl, by simpa [lowerHit] using h⟩

theorem lowerHit_eq_false {b : Bound} {x : ℚ} (h : lowerHit b x = false) :
    ∀ l, b.1 = some l → (l : ℚ) ≤ x := by
  intro l hl
  rcases b with ⟨b1, b2⟩
  cases hl
  simpa [lowerHit] using h

theorem upperHit_eq_true {b : Bound} {x : ℚ} (h : upperHit b x = true) :
    ∃ u, b.2 = some u ∧ (u : ℚ) < x := by
  rcases b with ⟨b1, _ | u⟩
  · simp [upperHit] at h
  · exact ⟨u, rfl, by simpa [upperHit] using h⟩

theorem upperHit_eq_false {b : Bound} {x : ℚ} (h : upperHit b x = false) :
    ∀ u, b.2 = some u → x ≤ (u : ℚ) := by
  intro u hu
  rcases b with ⟨b1, b2⟩
  cases hu
  simpa [upperHit] using h

/-- The distributor produces one value per slot. -/
theorem intAllocGo_length (x : ℚ) (nf fl cl : Int) :
    ∀ (bs : Bounds) (c : Int), (intAllocGo x nf fl cl bs c).length = bs.length := by
  intro bs
  induction bs with
  | nil => intro c; rfl
  | cons b rest ih =>
    intro c
    by_cases h1 : lowerHit b x = true
    · simp [intAllocGo, h1, ih]
    · by_cases h2 : upperHit b x = true
      · simp [intAllocGo, h1, h2, ih]
      · simp [intAllocGo, h1, h2, ih]

/-- Per-slot case analysis of the distributor: every produced value is the
slot's lower bound (when `x` is below it), its upper bound (when `x` is above
it), or one of `floor_x`, `ceil_x`. -/
theorem intAllocGo_zip_cases (x : ℚ) (nf fl cl : Int) :
    ∀ (bs : Bounds) (c : Int) (p : Bound × Int), p ∈ bs.zip (intAllocGo x nf fl cl bs c) →
      (lowerHit p.1 x = true ∧ p.2 = p.1.1.getD 0) ∨
      (lowerHit p.1 x = false ∧ upperHit p.1 x = true ∧ p.2 = p.1.2.getD 0) ∨
      (lowerHit p.1 x = false ∧ upperHit p.1 x = false ∧ (p.2 = fl ∨ p.2 = cl)) := by
  intro bs
  induction bs with
  | nil => intro c p hp; simp [intAllocGo] at hp
  | cons b rest ih =>
    intro c p hp
    by_cases h1 : lowerHit b x = true
    · rw [show intAllocGo x nf fl cl (b :: rest) c =
          b.1.getD 0 :: intAllocGo x nf fl cl rest c by simp [intAllocGo, h1]] at hp
      rcases List.mem_cons.mp hp with h | h
      · cases h
        exact Or.inl ⟨h1, rfl⟩
      · exact ih c p h
    · by_cases h2 : upperHit b x = true
      · rw [show intAllocGo x nf fl cl (b :: rest) c =
            b.2.getD 0 :: intAllocGo x nf fl cl rest c by
              simp [intAllocGo, h1, h2]] at hp
        rcases List.mem_cons.mp hp with h | h
        · cases h
          exact Or.inr (Or.inl ⟨Bool.of_not_eq_true h1, h2, rfl⟩)
        · exact ih c p h
      · rw [show intAllocGo x nf fl cl (b :: rest) c =
            (if c < nf then fl else cl) :: intAllocGo x nf fl cl rest (c + 1) by
              simp [intAllocGo, h1, h2]] at hp
        rcases List.mem_cons.mp hp with h | h
        · cases h
          refine Or.inr (Or.inr ⟨Bool.of_not_eq_true h1, Bool.of_not_eq_true h2, ?_⟩)
          by_cases hc : c < nf
          · exact Or.inl (by simp [hc])
          · exact Or.inr (by simp [hc])
        · exact ih (c + 1) p h

/-- Pairs of `bs.zip (bs.map f)` are graph pairs of `f`. -/
theorem zip_map_snd {α β : Type} (f : α → β) :
    ∀ (l : List α) (p : α × β), p ∈ l.zip (l.map f) → p.2 = f p.1 := by
  intro l
  induction l with
  | nil => intro p hp; simp at hp
  | cons a rest ih =>
    intro p hp
    rcases List.mem_cons.mp hp with h | h
    · cases h; rfl
    · exact ih p h

/-- Claim C9: whenever `solve` succeeds — in integer or continuous mode — on
an accepted bounds sequence, the returned vector has one entry per input slot,
and every entry respects its slot's present lower and upper bounds. -/
theorem C9_length_and_constraints (bs : Bounds) (A : EquitableBudgetAllocator) (budget : Int)
    (hA : construct bs = .ok A) :
    (∀ as, solveIntA A budget = .ok as →
      as.length = bs.length ∧
      ∀ p ∈ bs.zip as, (∀ l, p.1.1 = some l → l ≤ p.2) ∧ (∀ u, p.1.2 = some u → p.2 ≤ u)) ∧
    (∀ qs, solveContA A budget = .ok qs →
      qs.length = bs.length ∧
      ∀ p ∈ bs.zip qs,
        (∀ l, p.1.1 = some l → (l : ℚ) ≤ p.2) ∧ (∀ u, p.1.2 = some u → p.2 ≤ (u : ℚ))) := by
  obtain ⟨hAeq, hacc⟩ := construct_ok hA
  have hbounds : A.bounds = bs := by rw [hAeq]; rfl
  constructor
  · intro as hs
    unfold solveIntA at hs
    rcases hx : solveX A budget with e | ⟨x, rate⟩
    · rw [hx] at hs; cases hs
    · rw [hx] at hs
      cases hs
      rw [hbounds]
      refine ⟨?_, ?_⟩
      · exact intAllocGo_length x _ _ _ bs 0
      · intro p hp
        rcases intAllocGo_zip_cases x _ _ _ bs 0 p hp with ⟨h1, hv⟩ | ⟨h1, h2, hv⟩ | ⟨h1, h2, hv⟩
        · obtain ⟨l, hl, hxl⟩ := lowerHit_eq_true h1
          constructor
          · intro l' hl'
            rw [hl'] at hl
            cases hl
            rw [hv, hl']
            simp
          · intro u hu
            rw [hv, hl]
            exact accepted_le hacc p.1 (List.of_mem_zip hp).1 l u hl hu
        · obtain ⟨u, hu, hxu⟩ := upperHit_eq_true h2
          constructor
          · intro l hl
            rw [hv, hu]
            exact accepted_le hacc p.1 (List.of_mem_zip hp).1 l u hl hu
          · intro u' hu'
            rw [hu'] at hu
            cases hu
            rw [hv, hu']
            simp
        · constructor
          · intro l hl
            have hlx : (l : ℚ) ≤ x := lowerHit_eq_false h1 l hl
            have hfl : l ≤ ⌊x⌋ := Int.le_floor.mpr hlx
            rcases hv with hv | hv
            · rw [hv, ratFloor_eq]
              exact hfl
            · rw [hv, ratCeil_eq]
              exact hfl.trans (Int.floor_le_ceil x)
          · intro u hu
            have hxu : x ≤ (u : ℚ) := upperHit_eq_false h2 u hu
            have hcu : ⌈x⌉ ≤ u := Int.ceil_le.mpr hxu
            rcases hv with hv | hv
            · rw [hv, ratFloor_eq]
              exact (Int.floor_le_ceil x).trans hcu
            · rw [hv, ratCeil_eq]
              exact hcu
  · intro qs hs
    unfold solveContA at hs
    rcases hx : solveX A budget with e | ⟨x, rate⟩
    · rw [hx] at hs; cases hs
    · rw [hx] at hs
      cases hs
      rw [hbounds]
      refine ⟨by simp [allocationsCont], ?_⟩
      intro p hp
      have hval := zip_map_snd _ bs p hp
      by_cases h1 : lowerHit p.1 x = true
      · obtain ⟨l, hl, hxl⟩ := lowerHit_eq_true h1
        rw [show p.2 = ((p.1.1.getD 0 : Int) : ℚ) by rw [hval]; simp [h1]]
        constructor
        · intro l' hl'
          rw [hl'] at hl
          cases hl
          rw [hl']
          simp
        · intro u hu
          rw [hl]
          exact_mod_cast accepted_le hacc p.1 (List.of_mem_zip hp).1 l u hl hu
      · by_cases h2 : upperHit p.1 x = true
        · obtain ⟨u, hu, hxu⟩ := upperHit_eq_true h2
          rw [show p.2 = ((p.1.2.getD 0 : Int) : ℚ) by rw [hval]; simp [h1, h2]]
          constructor
          · intro l hl
            rw [hu]
            exact_mod_cast accepted_le hacc p.1 (List.of_mem_zip hp).1 l u hl hu
          · intro u' hu'
            rw [hu'] at hu
            cases hu
            rw [hu']
            simp
        · rw [show p.2 = x by rw [hval]; simp [h1, h2]]
          exact ⟨fun l hl => lowerHit_eq_false (Bool.of_not_eq_true h1) l hl,
                 fun u hu => upperHit_eq_false (Bool.of_not_eq_true h2) u hu⟩

unseal Rat.add Rat.mul Rat.sub Rat.inv in
/-- Witness for C9 at bounds `[(1, 3)]`, budget `2`: the solver returns `[2]`,
which has length `1` and satisfies `1 ≤ 2 ≤ 3`. -/
theorem C9_witness :
    ([2] : List Int).length = ([(some 1, some 3)] : Bounds).length ∧
    ∀ p ∈ ([(some 1, some 3)] : Bounds).zip ([2] : List Int),
      (∀ l, p.1.1 = some l → l ≤ p.2) ∧ (∀ u, p.1.2 = some u → p.2 ≤ u) :=
  (C9_length_and_constraints [(some 1, some 3)] (mkAllocator [(some 1, some 3)]) 2
    (by decide)).1 [2] (by decide)

/-- Membership in `H`: the value comes from a zip pair whose slot has no
lower bound or a lower bound strictly below the value. -/
theorem mem_nonLowerPinned {bs : Bounds} {as : List Int} {a : Int}
    (h : a ∈ nonLowerPinned bs as) :
    ∃ p ∈ bs.zip as, p.2 = a ∧ ∀ l, p.1.1 = some l → l < a := by
  unfold nonLowerPinned at h
  rcases List.mem_map.mp h with ⟨p, hp, hpa⟩
  obtain ⟨hpz, hpred⟩ := List.mem_filter.mp hp
  refine ⟨p, hpz, hpa, fun l hl => ?_⟩
  rw [hl] at hpred
  rw [← hpa]
  simpa using hpred

/-- Membership in `L`: the value comes from a zip pair whose slot has no
upper bound or an upper bound strictly above the value. -/
theorem mem_nonUpperPinned {bs : Bounds} {as : List Int} {a : Int}
    (h : a ∈ nonUpperPinned bs as) :
    ∃ p ∈ bs.zip as, p.2 = a ∧ ∀ u, p.1.2 = some u → a < u := by
  unfold nonUpperPinned at h
  rcases List.mem_map.mp h with ⟨p, hp, hpa⟩
  obtain ⟨hpz, hpred⟩ := List.mem_filter.mp hp
  refine ⟨p, hpz, hpa, fun u hu => ?_⟩
  rw [hu] at hpred
  rw [← hpa]
  simpa using hpred

/-- Claim C3: on any accepted bounds sequence, whenever integer solve
succeeds, the values not pinned at their lower bound (`H`) and the values not
pinned at their upper bound (`L`) satisfy `max H − min L ≤ 1` — every value of
`H` is at most `⌊x⌋ + 1` and every value of `L` is at least `⌊x⌋`. -/
theorem C3_equitability (bs : Bounds) (A : EquitableBudgetAllocator) (budget : Int)
    (as : List Int) (hi lo : Int)
    (hA : construct bs = .ok A)
    (hs : solveIntA A budget = .ok as)
    (hH : (nonLowerPinned bs as).maximum = some hi)
    (hL : (nonUpperPinned bs as).minimum = some lo) :
    hi - lo ≤ 1 := by
  obtain ⟨hAeq, -⟩ := construct_ok hA
  have hbounds : A.bounds = bs := by rw [hAeq]; rfl
  unfold solveIntA at hs
  rcases hx : solveX A budget with e | ⟨x, rate⟩
  · rw [hx] at hs; cases hs
  · rw [hx] at hs
    cases hs
    rw [hbounds] at hH hL
    have hhi : hi ≤ ⌊x⌋ + 1 := by
      obtain ⟨p, hpz, hpa, hpred⟩ := mem_nonLowerPinned (List.maximum_mem hH)
      rcases intAllocGo_zip_cases x _ _ _ bs 0 p hpz with ⟨h1, hv⟩ | ⟨h1, h2, hv⟩ | ⟨h1, h2, hv⟩
      · obtain ⟨l, hl, hxl⟩ := lowerHit_eq_true h1
        have : l < hi := hpred l hl
        rw [← hpa, hv, hl] at this
        simp at this
      · obtain ⟨u, hu, hxu⟩ := upperHit_eq_true h2
        have hval : hi = u := by rw [← hpa, hv, hu]; rfl
        have : hi ≤ ⌊x⌋ := Int.le_floor.mpr (by rw [hval]; exact le_of_lt hxu)
        omega
      · rcases hv with hv | hv
        · rw [← hpa, hv, ratFloor_eq]
          omega
        · rw [← hpa, hv, ratCeil_eq]
          exact Int.ceil_le_floor_add_one x
    have hlo : ⌊x⌋ ≤ lo := by
      obtain ⟨p, hpz, hpa, hpred⟩ := mem_nonUpperPinned (List.minimum_mem hL)
      rcases intAllocGo_zip_cases x _ _ _ bs 0 p hpz with ⟨h1, hv⟩ | ⟨h1, h2, hv⟩ | ⟨h1, h2, hv⟩
      · obtain ⟨l, hl, hxl⟩ := lowerHit_eq_true h1
        have hval : lo = l := by rw [← hpa, hv, hl]; rfl
        have : ⌊x⌋ < l := Int.floor_lt.mpr hxl
        omega
      · obtain ⟨u, hu, hxu⟩ := upperHit_eq_true h2
        have : lo < u := hpred u hu
        rw [← hpa, hv, hu] at this
        simp at this
      · rcases hv with hv | hv
        · rw [← hpa, hv, ratFloor_eq]
        · rw [← hpa, hv, ratCeil_eq]
          exact Int.floor_le_ceil x
    omega

unseal Rat.add Rat.mul Rat.sub Rat.inv in
/-- Witness for C3 at bounds `[(0, ∞), (−∞, 10)]`, budget `1`: the solver
returns `[0, 1]`, `H = [1]`, `L = [0, 1]`, and `max H − min L = 1 ≤ 1`. -/
theorem C3_witness : (1 : Int) - 0 ≤ 1 :=
  C3_equitability [(some 0, none), (none, some 10)]
    (mkAllocator [(some 0, none), (none, some 10)]) 1 [0, 1] 1 0
    (by decide) (by decide) (by decide) (by decide)

/-! ## Properties of dict insertion -/

theorem dictInsert_ne_nil {α : Type} (d : List (Int × α)) (k : Int) (v : α) :
    dictInsert d k v ≠ [] := by
  cases d with
  | nil => simp [dictInsert]
  | cons a t =>
    by_cases h : a.1 = k <;> simp [dictInsert, h]

theorem dictInsert_length {α : Type} (d : List (Int × α)) (k : Int) (v : α) :
    (dictInsert d k v).length ≤ d.length + 1 := by
  induction d with
  | nil => simp [dictInsert]
  | cons a t ih =>
    by_cases h : a.1 = k
    · rcases a with ⟨a1, a2⟩
      simp only at h
      simp [dictInsert, h]
    · rcases a with ⟨a1, a2⟩
      simp only at h
      simp only [dictInsert, if_neg h, List.length_cons]
      omega

theorem dictInsert_keys {α : Type} (d : List (Int × α)) (k : Int) (v : α) :
    (dictInsert d k v).map Prod.fst =
      if k ∈ d.map Prod.fst then d.map Prod.fst else d.map Prod.fst ++ [k] := by
  induction d with
  | nil => simp [dictInsert]
  | cons a t ih =>
    rcases a with ⟨a1, a2⟩
    by_cases h : a1 = k
    · simp [dictInsert, h]
    · simp only [dictInsert, if_neg h, List.map_cons, ih]
      by_cases hk : k ∈ t.map Prod.fst
      · simp [hk, Ne.symm h]
      · simp [hk, Ne.symm h]

theorem dictInsert_mem {α : Type} {d : List (Int × α)} {k : Int} {v : α}
    (hnd : (d.map Prod.fst).Nodup) :
    ∀ kv ∈ dictInsert d k v, kv = (k, v) ∨ (kv ∈ d ∧ kv.1 ≠ k) := by
  induction d with
  | nil =>
    intro kv hkv
    simp [dictInsert] at hkv
    exact Or.inl hkv
  | cons a t ih =>
    intro kv hkv
    rcases a with ⟨a1, a2⟩
    rcases List.nodup_cons.mp hnd with ⟨ha1, hndt⟩
    by_cases h : a1 = k
    · rw [show dictInsert ((a1, a2) :: t) k v = (k, v) :: t by simp [dictInsert, h]] at hkv
      rcases List.mem_cons.mp hkv with hh | hh
      · exact Or.inl hh
      · refine Or.inr ⟨List.mem_cons_of_mem _ hh, fun hc => ha1 ?_⟩
        have hm : kv.1 ∈ t.map Prod.fst := List.mem_map.mpr ⟨kv, hh, rfl⟩
        rw [hc, ← h] at hm
        exact hm
    · rw [show dictInsert ((a1, a2) :: t) k v = (a1, a2) :: dictInsert t k v by
        simp [dictInsert, h]] at hkv
      rcases List.mem_cons.mp hkv with hh | hh
      · exact Or.inr ⟨by rw [hh]; exact List.mem_cons_self _ _, by rw [hh]; exact h⟩
      · rcases ih hndt kv hh with hh' | hh'
        · exact Or.inl hh'
        · exact Or.inr ⟨List.mem_cons_of_mem _ hh'.1, hh'.2⟩

theorem dictInsert_sorted {α : Type} {d : List (Int × α)} {k : Int} {v : α}
    (hs : List.Pairwise (· < ·) (d.map Prod.fst))
    (hle : ∀ k' ∈ d.map Prod.fst, k' ≤ k) :
    List.Pairwise (· < ·) ((dictInsert d k v).map Prod.fst) := by
  rw [dictInsert_keys]
  by_cases hk : k ∈ d.map Prod.fst
  · rw [if_pos hk]
    exact hs
  · rw [if_neg hk]
    rw [List.pairwise_append]
    refine ⟨hs, List.pairwise_singleton _ _, ?_⟩
    intro a ha b hb
    rw [List.mem_singleton] at hb
    subst hb
    exact lt_of_le_of_ne (hle a ha) (fun hc => hk (hc ▸ ha))

theorem dictInsert_head_key {α : Type} (a : Int × α) (t : List (Int × α)) (k : Int) (v : α) :
    ((dictInsert (a :: t) k v).head?).map Prod.fst = some a.1 := by
  rcases a with ⟨a1, a2⟩
  by_cases h : a1 = k
  · simp [dictInsert, h]
  · simp [dictInsert, h]

theorem dictInsert_head_of_ne {α : Type} (a : Int × α) (t : List (Int × α)) {k : Int} (v : α)
    (h : a.1 ≠ k) : dictInsert (a :: t) k v = a :: dictInsert t k v := by
  rcases a with ⟨a1, a2⟩
  simp only at h
  simp [dictInsert, h]

theorem dictInsert_getLast {α : Type} {d : List (Int × α)} {k : Int} (v : α)
    (hs : List.Pairwise (· < ·) (d.map Prod.fst))
    (hle : ∀ k' ∈ d.map Prod.fst, k' ≤ k) :
    (dictInsert d k v).getLast? = some (k, v) := by
  induction d with
  | nil => simp [dictInsert]
  | cons a t ih =>
    rcases a with ⟨a1, a2⟩
    by_cases h : a1 = k
    · rw [show dictInsert ((a1, a2) :: t) k v = (k, v) :: t by simp [dictInsert, h]]
      have ht : t = [] := by
        cases t with
        | nil => rfl
        | cons b t' =>
          exfalso
          have h1 : a1 < b.1 := (List.pairwise_cons.mp hs).1 b.1 (by simp)
          have h2 : b.1 ≤ k := hle b.1 (by simp)
          omega
      rw [ht]
      rfl
    · rw [dictInsert_head_of_ne (a1, a2) t v h, List.getLast?_cons,
        ih (by simpa using (List.pairwise_cons.mp (by simpa using hs)).2)
          (fun k' hk' => hle k' (by simp [hk'])),
        Option.getD_some]

/-! ## Characterization of the sweep pass -/

/-- The contribution of one event to the rate: `+1` for a lower bound,
`-1` for an upper bound. -/
def evSign (e : Int × Bool) : Int := if e.2 then -1 else 1

/-- The net rate change contributed by all events with value `≤ k`. -/
def netLe (es : List (Int × Bool)) (k : Int) : Int :=
  ((es.filter fun e => decide (e.1 ≤ k)).map evSign).sum

theorem netLe_nil (k : Int) : netLe [] k = 0 := rfl

theorem netLe_cons (e : Int × Bool) (es : List (Int × Bool)) (k : Int) :
    netLe (e :: es) k = (if e.1 ≤ k then evSign e else 0) + netLe es k := by
  by_cases h : e.1 ≤ k <;> simp [netLe, h]

theorem netLe_zero_of_ge {es : List (Int × Bool)} {x : Int}
    (hge : ∀ e ∈ es, x ≤ e.1) (hni : x ∉ es.map Prod.fst) : netLe es x = 0 := by
  unfold netLe
  have : es.filter (fun e => decide (e.1 ≤ x)) = [] := by
    rw [List.filter_eq_nil_iff]
    intro e he
    simp only [decide_eq_true_eq]
    intro hc
    have := hge e he
    have hx : e.1 = x := le_antisymm hc this
    exact hni (hx ▸ List.mem_map_of_mem Prod.fst he)
  rw [this]
  rfl

/-- Full characterization of the sweep loop: starting from a strictly
key-sorted accumulator whose keys precede every event, the resulting dict is
strictly key-sorted, its entries are either untouched accumulator entries or
pairs `(value, r + netLe es value)` for event values, all keys survive, every
event value appears, and the final budget accumulates the lower-event
values. -/
theorem passB_spec :
    ∀ (es : List (Int × Bool)) (b r : Int) (acc : List (Int × Int)),
      List.Pairwise (fun a b : Int × Bool => a.1 ≤ b.1) es →
      List.Pairwise (· < ·) (acc.map Prod.fst) →
      (∀ k ∈ acc.map Prod.fst, ∀ e ∈ es, k ≤ e.1) →
      List.Pairwise (· < ·) ((passB es b r acc).2.map Prod.fst) ∧
      (∀ kv ∈ (passB es b r acc).2,
        (kv ∈ acc ∧ kv.1 ∉ es.map Prod.fst) ∨
        (kv.1 ∈ es.map Prod.fst ∧ kv.2 = r + netLe es kv.1)) ∧
      (∀ k ∈ acc.map Prod.fst, k ∈ (passB es b r acc).2.map Prod.fst) ∧
      (∀ e ∈ es, e.1 ∈ (passB es b r acc).2.map Prod.fst) ∧
      (passB es b r acc).1 = b + ((es.filter fun e => !e.2).map Prod.fst).sum := by
  intro es
  induction es with
  | nil =>
    intro b r acc _ hacc _
    refine ⟨hacc, fun kv hkv => Or.inl ⟨hkv, by simp⟩, fun k hk => hk, by simp, by simp [passB]⟩
  | cons e tl ih =>
    intro b r acc hsort hacc hle
    rcases e with ⟨x, isUp⟩
    obtain ⟨hx, htl⟩ := List.pairwise_cons.mp hsort
    set r' : Int := if isUp then r - 1 else r + 1 with hr'
    set b' : Int := if isUp then b else b + x with hb'
    have hstep : passB ((x, isUp) :: tl) b r acc = passB tl b' r' (dictInsert acc x r') := by
      cases isUp <;> simp [passB, hr', hb']
    have hlex : ∀ k ∈ acc.map Prod.fst, k ≤ x := fun k hk => hle k hk (x, isUp) (by simp)
    have hacc' : List.Pairwise (· < ·) ((dictInsert acc x r').map Prod.fst) :=
      dictInsert_sorted hacc hlex
    have hle' : ∀ k ∈ (dictInsert acc x r').map Prod.fst, ∀ e ∈ tl, k ≤ e.1 := by
      intro k hk e he
      rw [dictInsert_keys] at hk
      by_cases hmem : x ∈ acc.map Prod.fst
      · rw [if_pos hmem] at hk
        exact hle k hk e (by simp [he])
      · rw [if_neg hmem] at hk
        rcases List.mem_append.mp hk with hk | hk
        · exact hle k hk e (by simp [he])
        · rw [List.mem_singleton] at hk
          subst hk
          exact hx e he
    obtain ⟨c1, c2, c3, c4, c5⟩ := ih b' r' (dictInsert acc x r') htl hacc' hle'
    rw [hstep]
    refine ⟨c1, ?_, ?_, ?_, ?_⟩
    · intro kv hkv
      rcases c2 kv hkv with ⟨hin, hni⟩ | ⟨hin, hval⟩
      · rcases dictInsert_mem hacc.nodup kv hin with heq | ⟨hin', hne⟩
        · subst heq
          refine Or.inr ⟨by simp, ?_⟩
          have hnet : netLe tl x = 0 := netLe_zero_of_ge (fun e he => hx e he) hni
          rw [netLe_cons]
          simp only [le_refl, if_pos]
          rw [hnet]
          cases isUp <;> simp [evSign, hr'] <;> ring
        · refine Or.inl ⟨hin', ?_⟩
          simp only [List.map_cons, List.mem_cons]
          push_neg
          exact ⟨hne, hni⟩
      · refine Or.inr ⟨by simp [hin], ?_⟩
        have hxle : x ≤ kv.1 := by
          rcases List.mem_map.mp hin with ⟨e, he, hee⟩
          rw [← hee]
          exact hx e he
        rw [netLe_cons]
        simp only [hxle, if_pos]
        rw [hval]
        cases isUp <;> simp [evSign, hr'] <;> ring
    · intro k hk
      apply c3
      rw [dictInsert_keys]
      by_cases hmem : x ∈ acc.map Prod.fst
      · rw [if_pos hmem]; exact hk
      · rw [if_neg hmem]; exact List.mem_append_left _ hk
    · intro e he
      rcases List.mem_cons.mp he with he | he
      · subst he
        apply c3
        rw [dictInsert_keys]
        by_cases hmem : x ∈ acc.map Prod.fst
        · rw [if_pos hmem]; exact hmem
        · rw [if_neg hmem]; simp
      · exact c4 e he
    · rw [c5]
      cases isUp <;> simp [hb'] <;> ring

/-! ## The rate function and the intermediary table -/

/-- The rate recorded after all events with value `≤ k`:
`n_lower_unbounded` plus the net change of the crossed events. -/
def rateAt (bs : Bounds) (k : Int) : Int :=
  (nLowerUnbounded bs : Int) + netLe (flatBounds bs) k

/-- The contribution of a single slot to the rate at `k`: `1` if the slot is
active (its lower side is absent or `≤ k`, and its upper side is absent or
`> k`), else `0` — written as the signed difference the sweep computes. -/
def perSlot (b : Bound) (k : Int) : Int :=
  (match b.1 with | none => 1 | some l => if l ≤ k then 1 else 0) -
    (match b.2 with | none => 0 | some u => if u ≤ k then 1 else 0)

/-- `flatBounds` is a permutation of the raw event list. -/
theorem flatBounds_perm (bs : Bounds) : List.Perm (flatBounds bs) (evList bs) :=
  List.perm_insertionSort evLe (evList bs)

/-- `flatBounds` sorted by value (weak form of C7). -/
theorem flatBounds_le_sorted (bs : Bounds) :
    List.Pairwise (fun a b : Int × Bool => a.1 ≤ b.1) (flatBounds bs) := by
  refine (List.sorted_insertionSort evLe (evList bs)).imp ?_
  intro a b hab
  rcases hab with h | ⟨h, _⟩
  · exact le_of_lt h
  · exact le_of_eq h

/-- `netLe` only depends on the multiset of events. -/
theorem netLe_perm {es es' : List (Int × Bool)} (h : List.Perm es es') (k : Int) :
    netLe es k = netLe es' k :=
  ((h.filter _).map evSign).sum_eq

theorem netLe_append (es es' : List (Int × Bool)) (k : Int) :
    netLe (es ++ es') k = netLe es k + netLe es' k := by
  simp [netLe, List.filter_append]

/-- `filterMap` through `Option.map` is a `map` after `filterMap`. -/
theorem filterMap_option_map {α β γ : Type} (g : α → Option β) (f : β → γ) (l : List α) :
    (l.filterMap fun a => (g a).map f) = (l.filterMap g).map f := by
  induction l with
  | nil => rfl
  | cons a t ih =>
    cases hga : g a <;> simp [List.filterMap_cons, hga, ih]

/-- The raw event list, split through the value lists. -/
theorem evList_eq (bs : Bounds) :
    evList bs = ((lowerVals bs).map fun l => (l, false)) ++
      ((upperVals bs).map fun u => (u, true)) := by
  unfold evList lowerVals upperVals
  rw [filterMap_option_map, filterMap_option_map]

/-- The number of values `≤ k` in a list, as an integer. -/
def cntLe (vs : List Int) (k : Int) : Int :=
  match vs with
  | [] => 0
  | v :: t => (if v ≤ k then 1 else 0) + cntLe t k

theorem netLe_map_false (vs : List Int) (k : Int) :
    netLe (vs.map fun v => (v, false)) k = cntLe vs k := by
  induction vs with
  | nil => rfl
  | cons v t ih =>
    rw [List.map_cons, netLe_cons, ih]
    by_cases h : v ≤ k <;> simp [cntLe, evSign, h]

theorem netLe_map_true (vs : List Int) (k : Int) :
    netLe (vs.map fun v => (v, true)) k = -cntLe vs k := by
  induction vs with
  | nil => rfl
  | cons v t ih =>
    rw [List.map_cons, netLe_cons, ih]
    by_cases h : v ≤ k <;> simp [cntLe, evSign, h] <;> ring

/-- The rate at `k` is the sum over slots of the per-slot indicator. -/
theorem rateAt_eq_sum (bs : Bounds) (k : Int) :
    rateAt bs k = (bs.map fun b => perSlot b k).sum := by
  unfold rateAt
  rw [netLe_perm (flatBounds_perm bs) k, evList_eq, netLe_append, netLe_map_false,
    netLe_map_true]
  induction bs with
  | nil => rfl
  | cons b t ih =>
    rcases b with ⟨_ | l, _ | u⟩ <;>
      simp only [nLowerUnbounded, List.countP_cons, lowerVals, upperVals, List.filterMap_cons,
        List.map_cons, List.sum_cons, perSlot, cntLe, Option.isNone_none, Option.isNone_some]
        at ih ⊢
    · push_cast at ih ⊢
      omega
    · by_cases hu : u ≤ k <;> simp only [hu, if_pos, if_neg, if_true, if_false] <;>
        push_cast at ih ⊢ <;> omega
    · by_cases hl : l ≤ k <;> simp only [hl, if_pos, if_neg, if_true, if_false] <;>
        push_cast at ih ⊢ <;> omega
    · by_cases hl : l ≤ k <;> by_cases hu : u ≤ k <;>
        simp only [hl, hu, if_pos, if_neg, if_true, if_false] <;>
        push_cast at ih ⊢ <;> omega

/-- The facts delivered by the sweep: `r_table` has strictly increasing keys,
each entry is `(value, rateAt value)` for an event value, every event value
appears, and the accumulated budget is the sum of lower-event values. -/
theorem rTable_props (bs : Bounds) :
    List.Pairwise (· < ·) ((rTable bs).map Prod.fst) ∧
    (∀ kv ∈ rTable bs, kv.1 ∈ (flatBounds bs).map Prod.fst ∧ kv.2 = rateAt bs kv.1) ∧
    (∀ e ∈ flatBounds bs, e.1 ∈ (rTable bs).map Prod.fst) ∧
    bLowerSum bs = (((flatBounds bs).filter fun e => !e.2).map Prod.fst).sum := by
  obtain ⟨c1, c2, c3, c4, c5⟩ := passB_spec (flatBounds bs) 0 (nLowerUnbounded bs : Int) []
    (flatBounds_le_sorted bs) (by simp) (by simp)
  refine ⟨c1, ?_, c4, ?_⟩
  · intro kv hkv
    rcases c2 kv hkv with ⟨h, -⟩ | ⟨h1, h2⟩
    · simp at h
    · exact ⟨h1, h2⟩
  · unfold bLowerSum
    rw [c5]
    ring

/-- The budget accumulated by the sweep is the sum of the present lower
bounds. -/
theorem bLowerSum_eq (bs : Bounds) : bLowerSum bs = (lowerVals bs).sum := by
  rw [(rTable_props bs).2.2.2]
  have hperm := ((flatBounds_perm bs).filter (fun e => !e.2)).map Prod.fst
  rw [hperm.sum_eq, evList_eq, List.filter_append]
  have h1 : ((lowerVals bs).map fun l => (l, false)).filter (fun e => !e.2) =
      (lowerVals bs).map fun l => (l, false) := by
    rw [List.filter_eq_self]
    intro e he
    rcases List.mem_map.mp he with ⟨v, -, rfl⟩
    rfl
  have h2 : ((upperVals bs).map fun u => (u, true)).filter (fun e => !e.2) = [] := by
    rw [List.filter_eq_nil_iff]
    intro e he
    rcases List.mem_map.mp he with ⟨v, -, rfl⟩
    simp
  rw [h1, h2, List.append_nil, List.map_map]
  rw [show (Prod.fst ∘ fun l : Int => (l, false)) = id from rfl, List.map_id]

theorem perSlot_nonneg {b : Bound} (hb : ∀ l u, b.1 = some l → b.2 = some u → l ≤ u)
    (k : Int) : 0 ≤ perSlot b k := by
  rcases b with ⟨_ | l, _ | u⟩
  · show 0 ≤ (1 : Int) - 0
    omega
  · show 0 ≤ (1 : Int) - (if u ≤ k then 1 else 0)
    split_ifs <;> omega
  · show 0 ≤ (if l ≤ k then (1 : Int) else 0) - 0
    split_ifs <;> omega
  · have hlu := hb l u rfl rfl
    show 0 ≤ (if l ≤ k then (1 : Int) else 0) - (if u ≤ k then 1 else 0)
    split_ifs <;> omega

theorem rateAt_nonneg {bs : Bounds} (hacc : bs.any boundInvalid = false) (k : Int) :
    0 ≤ rateAt bs k := by
  rw [rateAt_eq_sum]
  apply List.sum_nonneg
  intro a ha
  rcases List.mem_map.mp ha with ⟨b, hb, rfl⟩
  exact perSlot_nonneg (fun l u hl hu => accepted_le hacc b hb l u hl hu) k

theorem sum_eq_zero_all {l : List Int} (h0 : l.sum = 0) (hn : ∀ a ∈ l, 0 ≤ a) :
    ∀ a ∈ l, a = 0 := by
  induction l with
  | nil => intro a ha; simp at ha
  | cons a t ih =>
    have hts : 0 ≤ t.sum := List.sum_nonneg fun b hb => hn b (List.mem_cons_of_mem a hb)
    have ha0 : 0 ≤ a := hn a (List.mem_cons_self a t)
    rw [List.sum_cons] at h0
    intro b hb
    rcases List.mem_cons.mp hb with rfl | hb
    · omega
    · exact ih (by omega) (fun c hc => hn c (List.mem_cons_of_mem a hc)) b hb

/-- If the rate at `k` vanishes, every slot's contribution vanishes. -/
theorem perSlot_zero_of_rateAt_zero {bs : Bounds} (hacc : bs.any boundInvalid = false)
    {k : Int} (h : rateAt bs k = 0) : ∀ b ∈ bs, perSlot b k = 0 := by
  intro b hb
  rw [rateAt_eq_sum] at h
  exact sum_eq_zero_all h
    (fun a ha => by
      rcases List.mem_map.mp ha with ⟨b', hb', rfl⟩
      exact perSlot_nonneg (fun l u hl hu => accepted_le hacc b' hb' l u hl hu) k)
    (perSlot b k) (List.mem_map_of_mem _ hb)

/-! ## Invariants of the budget-mapping pass -/

theorem passC_sorted :
    ∀ (rt : List (Int × Int)) (b px pr : Int) (acc : List (Int × Int × Int)),
      List.Pairwise (· < ·) (rt.map Prod.fst) →
      (∀ e ∈ rt, px < e.1) →
      0 ≤ pr →
      (∀ kv ∈ rt, 0 ≤ kv.2) →
      List.Pairwise (· < ·) (acc.map Prod.fst) →
      (∀ k ∈ acc.map Prod.fst, k ≤ b) →
      List.Pairwise (· < ·) ((passC rt b px pr acc).map Prod.fst) := by
  intro rt
  induction rt with
  | nil =>
    intro b px pr acc _ _ _ _ hacc _
    exact hacc
  | cons e tl ih =>
    intro b px pr acc h1 h2 h3 h4 hacc hle
    rcases e with ⟨x, r⟩
    have hb' : b ≤ b + (x - px) * pr := by
      have hx : px < x := h2 (x, r) (by simp)
      nlinarith
    have hle' : ∀ k ∈ acc.map Prod.fst, k ≤ b + (x - px) * pr :=
      fun k hk => (hle k hk).trans hb'
    refine ih _ _ _ _ ((List.pairwise_cons.mp (by simpa using h1)).2) ?_
      (h4 (x, r) (by simp)) (fun kv hkv => h4 kv (by simp [hkv]))
      (dictInsert_sorted hacc hle') ?_
    · intro e' he'
      exact (List.pairwise_cons.mp (by simpa using h1)).1 e'.1 (List.mem_map_of_mem _ he')
    · intro k hk
      rw [dictInsert_keys] at hk
      by_cases hmem : b + (x - px) * pr ∈ acc.map Prod.fst
      · rw [if_pos hmem] at hk
        exact hle' k hk
      · rw [if_neg hmem] at hk
        rcases List.mem_append.mp hk with hk | hk
        · exact hle' k hk
        · rw [List.mem_singleton] at hk
          exact le_of_eq hk

theorem passC_length :
    ∀ (rt : List (Int × Int)) (b px pr : Int) (acc : List (Int × Int × Int)),
      (passC rt b px pr acc).length ≤ acc.length + rt.length := by
  intro rt
  induction rt with
  | nil => intro b px pr acc; simp [passC]
  | cons e tl ih =>
    intro b px pr acc
    rcases e with ⟨x, r⟩
    calc (passC ((x, r) :: tl) b px pr acc).length
        ≤ (dictInsert acc (b + (x - px) * pr) (x, r)).length + tl.length := ih _ _ _ _
    _ ≤ acc.length + 1 + tl.length := by
        have := dictInsert_length acc (b + (x - px) * pr) (x, r)
        omega
    _ = acc.length + ((x, r) :: tl).length := by simp; omega

theorem passC_ne_nil :
    ∀ (rt : List (Int × Int)) (b px pr : Int) (acc : List (Int × Int × Int)),
      acc ≠ [] ∨ rt ≠ [] → passC rt b px pr acc ≠ [] := by
  intro rt
  induction rt with
  | nil =>
    intro b px pr acc h
    rcases h with h | h
    · exact h
    · exact absurd rfl h
  | cons e tl ih =>
    intro b px pr acc _
    rcases e with ⟨x, r⟩
    exact ih _ _ _ _ (Or.inl (dictInsert_ne_nil _ _ _))

theorem dictInsert_singleton_ne {α : Type} {B k : Int} (w v : α) (h : B ≠ k) :
    dictInsert [(B, w)] k v = [(B, w), (k, v)] := by
  simp [dictInsert, h]

/-- Splitting a strictly increasing key list at its head. -/
theorem pairwise_keys_cons {α : Type} {e : Int × α} {tl : List (Int × α)}
    (h : List.Pairwise (· < ·) ((e :: tl).map Prod.fst)) :
    (∀ e' ∈ tl, e.1 < e'.1) ∧ List.Pairwise (· < ·) (tl.map Prod.fst) := by
  rw [List.map_cons] at h
  obtain ⟨h1, h2⟩ := List.pairwise_cons.mp h
  exact ⟨fun e' he' => h1 e'.1 (List.mem_map_of_mem _ he'), h2⟩

/-- Walk over the leading zero-rate entries: starting from the current
`(x, rate)` pair, keep replacing it with the next entry while the current rate
is `0`.  This describes which entry ends up as the head *value* of `x_table`
after budget-key coalescing. -/
def skipZeros : Int × Int → List (Int × Int) → Int × Int
  | cur, [] => cur
  | cur, (x, r) :: tl => if cur.2 = 0 then skipZeros (x, r) tl else cur

theorem skipZeros_mem :
    ∀ (l : List (Int × Int)) (cur : Int × Int), skipZeros cur l = cur ∨ skipZeros cur l ∈ l := by
  intro l
  induction l with
  | nil => intro cur; exact Or.inl rfl
  | cons e tl ih =>
    intro cur
    rcases e with ⟨x, r⟩
    by_cases h : cur.2 = 0
    · rw [show skipZeros cur ((x, r) :: tl) = skipZeros (x, r) tl from by simp [skipZeros, h]]
      rcases ih (x, r) with h' | h'
      · exact Or.inr (by rw [h']; simp)
      · exact Or.inr (by simp [h'])
    · rw [show skipZeros cur ((x, r) :: tl) = cur from by simp [skipZeros, h]]
      exact Or.inl rfl

/-- Every entry of the chain strictly before the `skipZeros` stopping point
has rate `0`. -/
theorem skipZeros_prior :
    ∀ (l : List (Int × Int)) (cur : Int × Int),
      List.Pairwise (· < ·) ((cur :: l).map Prod.fst) →
      ∀ e ∈ cur :: l, e.1 < (skipZeros cur l).1 → e.2 = 0 := by
  intro l
  induction l with
  | nil =>
    intro cur _ e he hlt
    rcases List.mem_singleton.mp he with rfl
    exact absurd hlt (lt_irrefl _)
  | cons a tl ih =>
    intro cur hs e he hlt
    rcases a with ⟨x, r⟩
    by_cases h : cur.2 = 0
    · rw [show skipZeros cur ((x, r) :: tl) = skipZeros (x, r) tl from by simp [skipZeros, h]]
        at hlt
      rcases List.mem_cons.mp he with rfl | he'
      · exact h
      · exact ih (x, r) (pairwise_keys_cons hs).2 e he' hlt
    · rw [show skipZeros cur ((x, r) :: tl) = cur from by simp [skipZeros, h]] at hlt
      rcases List.mem_cons.mp he with rfl | he'
      · exact absurd hlt (lt_irrefl _)
      · exfalso
        have : cur.1 < e.1 := (pairwise_keys_cons hs).1 e he'
        omega

theorem passC_head_key :
    ∀ (rt : List (Int × Int)) (b px pr : Int) (a : Int × Int × Int) (tacc : List (Int × Int × Int)),
      ((passC rt b px pr (a :: tacc)).head?).map Prod.fst = some a.1 := by
  intro rt
  induction rt with
  | nil => intro b px pr a tacc; rfl
  | cons e tl ih =>
    intro b px pr a tacc
    rcases e with ⟨x, r⟩
    show ((passC tl (b + (x - px) * pr) x r
      (dictInsert (a :: tacc) (b + (x - px) * pr) (x, r))).head?).map Prod.fst = some a.1
    by_cases h : a.1 = b + (x - px) * pr
    · rw [show dictInsert (a :: tacc) (b + (x - px) * pr) (x, r) =
          (b + (x - px) * pr, (x, r)) :: tacc from by
            rcases a with ⟨a1, av⟩
            simp only at h
            simp [dictInsert, h]]
      rw [ih _ _ _ _ _]
      rw [h]
    · rw [dictInsert_head_of_ne a tacc _ h]
      exact ih _ _ _ _ _

theorem passC_head_stable :
    ∀ (rt : List (Int × Int)) (b px pr : Int) (acc : List (Int × Int × Int)) (hd : Int × Int × Int),
      acc.head? = some hd →
      hd.1 < b →
      List.Pairwise (· < ·) (rt.map Prod.fst) →
      (∀ e ∈ rt, px < e.1) →
      0 ≤ pr →
      (∀ kv ∈ rt, 0 ≤ kv.2) →
      (passC rt b px pr acc).head? = some hd := by
  intro rt
  induction rt with
  | nil =>
    intro b px pr acc hd hhd _ _ _ _ _
    exact hhd
  | cons e tl ih =>
    intro b px pr acc hd hhd hblt h1 h2 h3 h4
    rcases e with ⟨x, r⟩
    have hx : px < x := h2 (x, r) (by simp)
    have hb' : b ≤ b + (x - px) * pr := by nlinarith
    cases acc with
    | nil => cases hhd
    | cons a tacc =>
      have ha : a = hd := by
        rw [List.head?_cons] at hhd
        exact Option.some.inj hhd
      subst ha
      have hne : a.1 ≠ b + (x - px) * pr := by omega
      show (passC tl (b + (x - px) * pr) x r
        (dictInsert (a :: tacc) (b + (x - px) * pr) (x, r))).head? = some a
      rw [dictInsert_head_of_ne a tacc _ hne]
      exact ih _ _ _ _ a rfl (by omega)
        (pairwise_keys_cons h1).2
        (fun e' he' => (pairwise_keys_cons h1).1 e' he')
        (h4 (x, r) (by simp)) (fun kv hkv => h4 kv (by simp [hkv]))

/-- Starting from the freshly inserted first entry, the head of the final
`x_table` carries the first budget key and, as value, the entry reached by
skipping the leading zero-rate chain (coalesced by the dict overwrite). -/
theorem passC_from_singleton :
    ∀ (rt : List (Int × Int)) (B px pr : Int),
      List.Pairwise (· < ·) (rt.map Prod.fst) →
      (∀ e ∈ rt, px < e.1) →
      0 ≤ pr →
      (∀ kv ∈ rt, 0 ≤ kv.2) →
      (passC rt B px pr [(B, (px, pr))]).head? = some (B, skipZeros (px, pr) rt) := by
  intro rt
  induction rt with
  | nil =>
    intro B px pr _ _ _ _
    rfl
  | cons e tl ih =>
    intro B px pr h1 h2 h3 h4
    rcases e with ⟨x, r⟩
    have hx : px < x := h2 (x, r) (by simp)
    by_cases hpr : pr = 0
    · subst hpr
      show (passC tl (B + (x - px) * 0) x r
        (dictInsert [(B, (px, 0))] (B + (x - px) * 0) (x, r))).head? = _
      rw [show B + (x - px) * 0 = B from by ring,
        show dictInsert [(B, (px, 0))] B (x, r) = [(B, (x, r))] from by simp [dictInsert],
        ih B x r (pairwise_keys_cons h1).2 (fun e' he' => (pairwise_keys_cons h1).1 e' he')
          (h4 (x, r) (by simp)) (fun kv hkv => h4 kv (by simp [hkv])),
        show skipZeros (px, 0) ((x, r) :: tl) = skipZeros (x, r) tl from by simp [skipZeros]]
    · have hlt : B < B + (x - px) * pr := by
        have : 0 < pr := lt_of_le_of_ne h3 (Ne.symm hpr)
        nlinarith
      show (passC tl (B + (x - px) * pr) x r
        (dictInsert [(B, (px, pr))] (B + (x - px) * pr) (x, r))).head? = _
      rw [dictInsert_singleton_ne _ _ (by omega),
        passC_head_stable tl (B + (x - px) * pr) x r
          [(B, (px, pr)), (B + (x - px) * pr, (x, r))] (B, (px, pr)) rfl hlt
          (pairwise_keys_cons h1).2
          (fun e' he' => (pairwise_keys_cons h1).1 e' he')
          (h4 (x, r) (by simp)) (fun kv hkv => h4 kv (by simp [hkv])),
        show skipZeros (px, pr) ((x, r) :: tl) = (px, pr) from by simp [skipZeros, hpr]]

/-- The telescoped budget increments along the region walk. -/
def teleSum : Int → Int → List (Int × Int) → Int
  | _, _, [] => 0
  | px, pr, (x, r) :: tl => (x - px) * pr + teleSum x r tl

/-- The last entry of `x_table`: its key is the fully accumulated budget and
its value is the last `r_table` entry. -/
theorem passC_getLast :
    ∀ (rt : List (Int × Int)) (b px pr : Int) (acc : List (Int × Int × Int)) (xM rM : Int),
      rt.getLast? = some (xM, rM) →
      List.Pairwise (· < ·) (rt.map Prod.fst) →
      (∀ e ∈ rt, px < e.1) →
      0 ≤ pr →
      (∀ kv ∈ rt, 0 ≤ kv.2) →
      List.Pairwise (· < ·) (acc.map Prod.fst) →
      (∀ k ∈ acc.map Prod.fst, k ≤ b) →
      (passC rt b px pr acc).getLast? = some (b + teleSum px pr rt, (xM, rM)) := by
  intro rt
  induction rt with
  | nil =>
    intro b px pr acc xM rM hlast
    cases hlast
  | cons e tl ih =>
    intro b px pr acc xM rM hlast h1 h2 h3 h4 hacc hle
    rcases e with ⟨x, r⟩
    have hx : px < x := h2 (x, r) (by simp)
    have hb' : b ≤ b + (x - px) * pr := by nlinarith
    have hle' : ∀ k ∈ acc.map Prod.fst, k ≤ b + (x - px) * pr := fun k hk => (hle k hk).trans hb'
    cases tl with
    | nil =>
      have hxm : x = xM ∧ r = rM := by
        rw [List.getLast?_singleton] at hlast
        have := Option.some.inj hlast
        exact ⟨congrArg Prod.fst this, congrArg Prod.snd this⟩
      obtain ⟨rfl, rfl⟩ := hxm
      show (passC [] (b + (x - px) * pr) x r
        (dictInsert acc (b + (x - px) * pr) (x, r))).getLast? = _
      rw [show passC [] (b + (x - px) * pr) x r
          (dictInsert acc (b + (x - px) * pr) (x, r)) =
          dictInsert acc (b + (x - px) * pr) (x, r) from rfl,
        dictInsert_getLast (x, r) hacc hle']
      congr 2
      show b + (x - px) * pr = b + ((x - px) * pr + 0)
      ring
    | cons y tl' =>
      have hlast' : (y :: tl').getLast? = some (xM, rM) := by
        rwa [List.getLast?_cons_cons] at hlast
      show (passC (y :: tl') (b + (x - px) * pr) x r
        (dictInsert acc (b + (x - px) * pr) (x, r))).getLast? = _
      rw [ih (b + (x - px) * pr) x r _ xM rM hlast' (pairwise_keys_cons h1).2
        (fun e' he' => (pairwise_keys_cons h1).1 e' he')
        (h4 (x, r) (by simp)) (fun kv hkv => h4 kv (by simp [hkv]))
        (dictInsert_sorted hacc hle')
        (by
          intro k hk
          rw [dictInsert_keys] at hk
          by_cases hmem : b + (x - px) * pr ∈ acc.map Prod.fst
          · rw [if_pos hmem] at hk
            exact hle' k hk
          · rw [if_neg hmem] at hk
            rcases List.mem_append.mp hk with hk | hk
            · exact hle' k hk
            · rw [List.mem_singleton] at hk
              exact le_of_eq hk)]
      congr 2
      show b + (x - px) * pr + teleSum x r (y :: tl') =
        b + ((x - px) * pr + teleSum x r (y :: tl'))
      ring

/-- Peeling the first `r_table` entry off the `x_table` computation. -/
theorem xTable_eq_cons {bs : Bounds} {x0 r0 : Int} {rest : List (Int × Int)}
    (h : rTable bs = (x0, r0) :: rest) :
    xTable bs = passC rest (bLowerSum bs + (x0 - 0) * (nLowerUnbounded bs : Int)) x0 r0
      [(bLowerSum bs + (x0 - 0) * (nLowerUnbounded bs : Int), (x0, r0))] := by
  unfold xTable
  rw [h]
  rfl

theorem rTable_vals_nonneg {bs : Bounds} (hacc : bs.any boundInvalid = false) :
    ∀ kv ∈ rTable bs, 0 ≤ kv.2 := by
  intro kv hkv
  rw [((rTable_props bs).2.1 kv hkv).2]
  exact rateAt_nonneg hacc kv.1

/-- The keys of `x_table` are strictly increasing (core of claim C6). -/
theorem xTable_keys_sorted (bs : Bounds) (hacc : bs.any boundInvalid = false) :
    List.Pairwise (· < ·) ((xTable bs).map Prod.fst) := by
  rcases hrt : rTable bs with _ | ⟨⟨x0, r0⟩, rest⟩
  · rw [show xTable bs = [] from by unfold xTable; rw [hrt]; rfl]
    exact List.Pairwise.nil
  · have hsorted : List.Pairwise (· < ·) (((x0, r0) :: rest).map Prod.fst) := by
      rw [← hrt]
      exact (rTable_props bs).1
    rw [xTable_eq_cons hrt]
    refine passC_sorted rest _ x0 r0 _ (pairwise_keys_cons hsorted).2
      (fun e he => (pairwise_keys_cons hsorted).1 e he)
      (rTable_vals_nonneg hacc (x0, r0) (by rw [hrt]; simp))
      (fun kv hkv => rTable_vals_nonneg hacc kv (by rw [hrt]; simp [hkv]))
      (by simp) (by simp)

/-- Claim C6: for every accepted bounds sequence, the keys tuple of the
constructed solution table is strictly increasing. -/
theorem C6_keys_strictly_increasing (bs : Bounds) (A : EquitableBudgetAllocator)
    (hA : construct bs = .ok A) :
    List.Pairwise (· < ·) A.table.1 := by
  obtain ⟨hAeq, hacc⟩ := construct_ok hA
  have htab : A.table = solveTable bs := by rw [hAeq]; rfl
  rw [htab]
  show List.Pairwise (· < ·) ((xTable bs).map Prod.fst)
  exact xTable_keys_sorted bs hacc

/-- Witness for C6 at an accepted concrete input. -/
theorem C6_witness :
    List.Pairwise (· < ·) (mkAllocator [(some 1, some 3)]).table.1 :=
  C6_keys_strictly_increasing [(some 1, some 3)] (mkAllocator [(some 1, some 3)]) (by decide)

/-- Emptiness of the raw event list characterizes full unboundedness. -/
theorem evList_eq_nil_iff (bs : Bounds) : evList bs = [] ↔ isUnbounded bs = true := by
  unfold evList isUnbounded
  rw [List.append_eq_nil, List.filterMap_eq_nil, List.filterMap_eq_nil, List.all_eq_true]
  constructor
  · intro ⟨h1, h2⟩ b hb
    have e1 := h1 b hb
    have e2 := h2 b hb
    rw [Option.map_eq_none'] at e1 e2
    simp [e1, e2]
  · intro h
    constructor
    · intro b hb
      have := h b hb
      rcases hb1 : b.1 with _ | v
      · rfl
      · rw [hb1] at this
        simp at this
    · intro b hb
      have := h b hb
      rcases hb2 : b.2 with _ | v
      · rfl
      · rw [hb2] at this
        simp at this

theorem xTable_eq_nil_iff (bs : Bounds) : xTable bs = [] ↔ isUnbounded bs = true := by
  constructor
  · intro h
    rw [← evList_eq_nil_iff]
    by_contra hne
    have hflat : flatBounds bs ≠ [] := by
      intro hf
      apply hne
      have hp := (flatBounds_perm bs).symm
      rw [hf] at hp
      exact hp.eq_nil
    rcases hfb : flatBounds bs with _ | ⟨e, tl⟩
    · exact hflat hfb
    · have hrt : rTable bs ≠ [] := by
        intro hr
        have := (rTable_props bs).2.2.1 e (by rw [hfb]; simp)
        rw [hr] at this
        simp at this
      rcases hrtc : rTable bs with _ | ⟨kv, rest⟩
      · exact hrt hrtc
      · have := passC_ne_nil (rTable bs) (bLowerSum bs) 0 (nLowerUnbounded bs : Int) []
          (Or.inr (by rw [hrtc]; simp))
        exact this h
  · intro h
    have hev : evList bs = [] := (evList_eq_nil_iff bs).mpr h
    have hflat : flatBounds bs = [] := by
      have hp := flatBounds_perm bs
      rw [hev] at hp
      exact hp.eq_nil
    unfold xTable rTable bLowerSum
    rw [hflat]
    rfl

/-- Amended claim C5: the solution table has *at most* one entry per distinct
event value (consecutive event values with equal cumulative budgets coalesce,
since `x_table` is keyed by budget), and it is empty exactly when all bound
sides are absent. -/
theorem C5_amended (bs : Bounds) (A : EquitableBudgetAllocator)
    (hA : construct bs = .ok A) :
    A.table.1.length ≤ ((flatBounds bs).map Prod.fst).dedup.length ∧
    (A.table.1 = [] ↔ A.is_unbounded = true) := by
  obtain ⟨hAeq, hacc⟩ := construct_ok hA
  have htab : A.table = solveTable bs := by rw [hAeq]; rfl
  have hunb : A.is_unbounded = isUnbounded bs := by rw [hAeq]; rfl
  rw [htab, hunb]
  constructor
  · show ((xTable bs).map Prod.fst).length ≤ _
    rw [List.length_map]
    have h1 : (xTable bs).length ≤ (rTable bs).length := by
      have := passC_length (rTable bs) (bLowerSum bs) 0 (nLowerUnbounded bs : Int) []
      simpa using this
    have hnd : ((rTable bs).map Prod.fst).Nodup :=
      (rTable_props bs).1.imp ne_of_lt
    have hfinset : ((rTable bs).map Prod.fst).toFinset =
        ((flatBounds bs).map Prod.fst).toFinset := by
      apply Finset.ext
      intro a
      rw [List.mem_toFinset, List.mem_toFinset]
      constructor
      · intro ha
        rcases List.mem_map.mp ha with ⟨kv, hkv, rfl⟩
        exact ((rTable_props bs).2.1 kv hkv).1
      · intro ha
        rcases List.mem_map.mp ha with ⟨e, he, rfl⟩
        exact (rTable_props bs).2.2.1 e he
    have h2 : (rTable bs).length = ((flatBounds bs).map Prod.fst).dedup.length := by
      calc (rTable bs).length = ((rTable bs).map Prod.fst).length := by rw [List.length_map]
      _ = ((rTable bs).map Prod.fst).toFinset.card := (List.toFinset_card_of_nodup hnd).symm
      _ = ((flatBounds bs).map Prod.fst).toFinset.card := by rw [hfinset]
      _ = ((flatBounds bs).map Prod.fst).dedup.length := List.card_toFinset _
    omega
  · show (xTable bs).map Prod.fst = [] ↔ _
    rw [List.map_eq_nil_iff]
    exact xTable_eq_nil_iff bs

/-- Witness for the amended C5 at an accepted concrete input. -/
theorem C5_amended_witness :
    (mkAllocator [(some 1, some 3)]).table.1.length ≤
      ((flatBounds [(some 1, some 3)]).map Prod.fst).dedup.length ∧
    ((mkAllocator [(some 1, some 3)]).table.1 = [] ↔
      (mkAllocator [(some 1, some 3)]).is_unbounded = true) :=
  C5_amended [(some 1, some 3)] (mkAllocator [(some 1, some 3)]) (by decide)

/-! ## Telescoping the accumulated budget -/

/-- Telescoped sum over the consecutive pairs of a value list:
`Σ (q − p) · f p`. -/
def teleSumF (f : Int → Int) : List Int → Int
  | [] => 0
  | [_] => 0
  | p :: q :: tl => (q - p) * f p + teleSumF f (q :: tl)

theorem teleSumF_congr {f g : Int → Int} :
    ∀ {vs : List Int}, (∀ v ∈ vs, f v = g v) → teleSumF f vs = teleSumF g vs := by
  intro vs
  induction vs with
  | nil => intro _; rfl
  | cons p tl ih =>
    intro h
    cases tl with
    | nil => rfl
    | cons q tl' =>
      show (q - p) * f p + teleSumF f (q :: tl') = (q - p) * g p + teleSumF g (q :: tl')
      rw [h p (by simp), ih fun v hv => h v (by simp [hv])]

theorem teleSumF_zero {f : Int → Int} :
    ∀ {vs : List Int}, (∀ v ∈ vs, f v = 0) → teleSumF f vs = 0 := by
  intro vs
  induction vs with
  | nil => intro _; rfl
  | cons p tl ih =>
    intro h
    cases tl with
    | nil => rfl
    | cons q tl' =>
      show (q - p) * f p + teleSumF f (q :: tl') = 0
      rw [h p (by simp), ih fun v hv => h v (by simp [hv])]
      ring

theorem teleSum_eq_F :
    ∀ (l : List (Int × Int)) (cx cr : Int) (f : Int → Int),
      cr = f cx → (∀ kv ∈ l, kv.2 = f kv.1) →
      teleSum cx cr l = teleSumF f (cx :: l.map Prod.fst) := by
  intro l
  induction l with
  | nil => intro cx cr f _ _; rfl
  | cons e tl ih =>
    intro cx cr f hc hv
    rcases e with ⟨x, r⟩
    show (x - cx) * cr + teleSum x r tl = (x - cx) * f cx + teleSumF f (x :: tl.map Prod.fst)
    rw [hc, ih x r f (hv (x, r) (by simp)) fun kv hkv => hv kv (by simp [hkv])]

theorem listMapSum_add {α : Type} :
    ∀ (l : List α) (f g : α → Int),
      (l.map fun a => f a + g a).sum = (l.map f).sum + (l.map g).sum := by
  intro l
  induction l with
  | nil => intro f g; rfl
  | cons a t ih =>
    intro f g
    simp only [List.map_cons, List.sum_cons, ih]
    ring

theorem listMapSum_mul {α : Type} :
    ∀ (l : List α) (c : Int) (f : α → Int),
      (l.map fun a => c * f a).sum = c * (l.map f).sum := by
  intro l
  induction l with
  | nil => intro c f; simp
  | cons a t ih =>
    intro c f
    simp only [List.map_cons, List.sum_cons, ih]
    ring

/-- A telescoped pointwise sum splits into the sum of telescopes. -/
theorem teleSumF_sum {α : Type} (l : List α) (g : α → Int → Int) :
    ∀ (vs : List Int),
      teleSumF (fun v => (l.map fun a => g a v).sum) vs =
        (l.map fun a => teleSumF (g a) vs).sum := by
  intro vs
  induction vs with
  | nil => simp [teleSumF]
  | cons p tl ih =>
    cases tl with
    | nil => simp [teleSumF]
    | cons q tl' =>
      show (q - p) * (l.map fun a => g a p).sum +
          teleSumF (fun v => (l.map fun a => g a v).sum) (q :: tl') = _
      rw [ih, ← listMapSum_mul l (q - p) (fun a => g a p), ← listMapSum_add]
      rfl

/-- Unfolding `teleSumF` on two leading values. -/
theorem teleSumF_cons_cons (f : Int → Int) (p q : Int) (tl : List Int) :
    teleSumF f (p :: q :: tl) = (q - p) * f p + teleSumF f (q :: tl) := rfl

/-- Telescoping an interval indicator over a strictly increasing list
containing both endpoints yields the interval length. -/
theorem teleSumF_interval :
    ∀ (vs : List Int), List.Pairwise (· < ·) vs → ∀ l u : Int, l ∈ vs → u ∈ vs → l ≤ u →
      teleSumF (fun v => if l ≤ v ∧ v < u then 1 else 0) vs = u - l := by
  intro vs
  induction vs with
  | nil => intro _ l u hl; simp at hl
  | cons p tl ih =>
    intro hs l u hl hu hlu
    cases tl with
    | nil =>
      rw [List.mem_singleton] at hl hu
      rw [hl, hu]
      show (0 : Int) = p - p
      ring
    | cons q tl' =>
      obtain ⟨hp, hs'⟩ := List.pairwise_cons.mp hs
      have hpq : p < q := hp q (by simp)
      have hqle : ∀ v ∈ q :: tl', q ≤ v := by
        intro v hv
        rcases List.mem_cons.mp hv with rfl | hv'
        · exact le_refl v
        · exact le_of_lt ((List.pairwise_cons.mp hs').1 v hv')
      rcases List.mem_cons.mp hl with hlp | hl'
      · rcases List.mem_cons.mp hu with hup | hu'
        · simp only [teleSumF_cons_cons]
          rw [if_neg (by omega), mul_zero, zero_add,
            teleSumF_zero (fun v hv => by
              have hqv := hqle v hv
              exact if_neg (by omega))]
          omega
        · have hpu : p < u := hp u hu'
          have hqu : q ≤ u := hqle u hu'
          simp only [teleSumF_cons_cons]
          rw [if_pos (by omega), mul_one,
            teleSumF_congr (g := fun v => if q ≤ v ∧ v < u then 1 else 0) (fun v hv => by
              have hqv := hqle v hv
              show (if l ≤ v ∧ v < u then (1 : Int) else 0) =
                if q ≤ v ∧ v < u then (1 : Int) else 0
              by_cases h : v < u
              · rw [if_pos (by omega), if_pos ⟨hqv, h⟩]
              · rw [if_neg (by omega), if_neg (by omega)]),
            ih hs' q u (by simp) hu' hqu]
          omega
      · have hpl : p < l := hp l hl'
        have hu' : u ∈ q :: tl' := by
          rcases List.mem_cons.mp hu with hup | h''
          · exfalso
            omega
          · exact h''
        simp only [teleSumF_cons_cons]
        rw [if_neg (by omega), mul_zero, zero_add,
          ih hs' l u hl' hu' hlu]

/-- Telescoping a downward-closed indicator over a strictly increasing list
containing the endpoint yields the distance from the head. -/
theorem teleSumF_ray :
    ∀ (v0 : Int) (tl : List Int), List.Pairwise (· < ·) (v0 :: tl) → ∀ u ∈ v0 :: tl,
      teleSumF (fun v => if v < u then 1 else 0) (v0 :: tl) = u - v0 := by
  intro v0 tl
  induction tl generalizing v0 with
  | nil =>
    intro _ u hu
    rw [List.mem_singleton] at hu
    rw [hu]
    show (0 : Int) = v0 - v0
    ring
  | cons q tl' ih =>
    intro hs u hu
    obtain ⟨hp, hs'⟩ := List.pairwise_cons.mp hs
    have hpq : v0 < q := hp q (by simp)
    rcases List.mem_cons.mp hu with hup | hu'
    · simp only [teleSumF_cons_cons]
      rw [if_neg (by omega), mul_zero, zero_add,
        teleSumF_zero (fun v hv => by
          have huv : u < v := by
            have : v0 < v := hp v (by simp [hv])
            omega
          exact if_neg (by omega))]
      omega
    · have hv0u : v0 < u := hp u (by simp [hu'])
      simp only [teleSumF_cons_cons]
      rw [if_pos (by omega), mul_one, ih q hs' u hu']
      omega

theorem all_lower_some {bs : Bounds} (h : nLowerUnbounded bs = 0) :
    ∀ b ∈ bs, ∃ l, b.1 = some l := by
  intro b hb
  have := List.countP_eq_zero.mp h b hb
  rcases hb1 : b.1 with _ | l
  · rw [hb1] at this
    simp at this
  · exact ⟨l, rfl⟩

theorem all_upper_some {bs : Bounds} (h : nUpperUnbounded bs = 0) :
    ∀ b ∈ bs, ∃ u, b.2 = some u := by
  intro b hb
  have := List.countP_eq_zero.mp h b hb
  rcases hb2 : b.2 with _ | u
  · rw [hb2] at this
    simp at this
  · exact ⟨u, rfl⟩

theorem lower_mem_rtKeys {bs : Bounds} {b : Bound} {l : Int}
    (hb : b ∈ bs) (hl : b.1 = some l) : l ∈ (rTable bs).map Prod.fst := by
  have hev : (l, false) ∈ evList bs := by
    rw [evList_eq]
    exact List.mem_append_left _
      (List.mem_map.mpr ⟨l, List.mem_filterMap.mpr ⟨b, hb, hl⟩, rfl⟩)
  exact (rTable_props bs).2.2.1 (l, false) ((flatBounds_perm bs).mem_iff.mpr hev)

theorem upper_mem_rtKeys {bs : Bounds} {b : Bound} {u : Int}
    (hb : b ∈ bs) (hu : b.2 = some u) : u ∈ (rTable bs).map Prod.fst := by
  have hev : (u, true) ∈ evList bs := by
    rw [evList_eq]
    exact List.mem_append_right _
      (List.mem_map.mpr ⟨u, List.mem_filterMap.mpr ⟨b, hb, hu⟩, rfl⟩)
  exact (rTable_props bs).2.2.1 (u, true) ((flatBounds_perm bs).mem_iff.mpr hev)

theorem lowerVals_sum_eq (bs : Bounds) :
    (lowerVals bs).sum = (bs.map fun b => b.1.getD 0).sum := by
  induction bs with
  | nil => rfl
  | cons b t ih =>
    rcases hb1 : b.1 with _ | l <;>
      simp [lowerVals, List.filterMap_cons, hb1, ih, lowerVals] at ih ⊢ <;> omega

theorem upperVals_sum_eq (bs : Bounds) :
    (upperVals bs).sum = (bs.map fun b => b.2.getD 0).sum := by
  induction bs with
  | nil => rfl
  | cons b t ih =>
    rcases hb2 : b.2 with _ | u <;>
      simp [upperVals, List.filterMap_cons, hb2, ih, upperVals] at ih ⊢ <;> omega

theorem nLU_cast_eq (bs : Bounds) :
    (nLowerUnbounded bs : Int) = (bs.map fun b => if b.1.isNone then (1 : Int) else 0).sum := by
  induction bs with
  | nil => rfl
  | cons b t ih =>
    rcases hb1 : b.1 with _ | l <;>
      simp [nLowerUnbounded, List.countP_cons, hb1] at ih ⊢ <;> push_cast <;> omega

/-- The per-slot telescoped contribution of one slot over the full value walk:
its lower value (or the head value when the lower side is absent) plus the
telescoped active indicator equals its upper bound. -/
theorem perSlot_total {bs : Bounds} (hacc : bs.any boundInvalid = false)
    {v0 : Int} {vtl : List Int}
    (hvs : List.Pairwise (· < ·) (v0 :: vtl))
    (hmemL : ∀ b ∈ bs, ∀ l, b.1 = some l → l ∈ v0 :: vtl)
    (hmemU : ∀ b ∈ bs, ∀ u, b.2 = some u → u ∈ v0 :: vtl)
    (hupp : ∀ b ∈ bs, ∃ u, b.2 = some u) :
    ∀ b ∈ bs,
      b.1.getD 0 + v0 * (if b.1.isNone then 1 else 0) + teleSumF (perSlot b) (v0 :: vtl)
        = b.2.getD 0 := by
  intro b hb
  obtain ⟨u, hu⟩ := hupp b hb
  have humem : u ∈ v0 :: vtl := hmemU b hb u hu
  rcases b with ⟨b1, b2⟩
  rcases hu
  rcases hb1 : b1 with _ | l
  · subst hb1
    have hcongr : teleSumF (perSlot (none, some u)) (v0 :: vtl) =
        teleSumF (fun v => if v < u then 1 else 0) (v0 :: vtl) := by
      apply teleSumF_congr
      intro v _
      show (1 : Int) - (if u ≤ v then 1 else 0) = if v < u then 1 else 0
      split_ifs <;> omega
    rw [hcongr, teleSumF_ray v0 vtl hvs u humem]
    show (0 : Int) + v0 * 1 + (u - v0) = u
    ring
  · subst hb1
    have hlu : l ≤ u := accepted_le hacc (some l, some u) hb l u rfl rfl
    have hlmem : l ∈ v0 :: vtl := hmemL (some l, some u) hb l rfl
    have hcongr : teleSumF (perSlot (some l, some u)) (v0 :: vtl) =
        teleSumF (fun v => if l ≤ v ∧ v < u then 1 else 0) (v0 :: vtl) := by
      apply teleSumF_congr
      intro v _
      show ((if l ≤ v then 1 else 0) : Int) - (if u ≤ v then 1 else 0) =
        if l ≤ v ∧ v < u then 1 else 0
      split_ifs <;> omega
    rw [hcongr, teleSumF_interval (v0 :: vtl) hvs l u hlmem humem hlu]
    show l + v0 * 0 + (u - l) = u
    ring

/-- The telescoping theorem: when all upper bounds are present, the final key
of the solution table (the fully accumulated budget) is the sum of the upper
bounds. -/
theorem keyLast_eq_upperSum (bs : Bounds) (hacc : bs.any boundInvalid = false)
    (hupp : nUpperUnbounded bs = 0) {x0 r0 : Int} {rest : List (Int × Int)}
    (hrt : rTable bs = (x0, r0) :: rest) :
    bLowerSum bs + (x0 - 0) * (nLowerUnbounded bs : Int) + teleSum x0 r0 rest
      = (upperVals bs).sum := by
  have hsorted : List.Pairwise (· < ·) (x0 :: rest.map Prod.fst) := by
    have := (rTable_props bs).1
    rw [hrt] at this
    exact this
  have hr0 : r0 = rateAt bs x0 :=
    ((rTable_props bs).2.1 (x0, r0) (by rw [hrt]; simp)).2
  have hrest : ∀ kv ∈ rest, kv.2 = rateAt bs kv.1 := fun kv hkv =>
    ((rTable_props bs).2.1 kv (by rw [hrt]; simp [hkv])).2
  rw [teleSum_eq_F rest x0 r0 (rateAt bs) hr0 hrest]
  have h1 : teleSumF (rateAt bs) (x0 :: rest.map Prod.fst) =
      (bs.map fun b => teleSumF (perSlot b) (x0 :: rest.map Prod.fst)).sum := by
    rw [teleSumF_congr (g := fun v => (bs.map fun b => perSlot b v).sum)
      (fun v _ => rateAt_eq_sum bs v)]
    exact teleSumF_sum bs perSlot _
  rw [h1, bLowerSum_eq, lowerVals_sum_eq, nLU_cast_eq,
    show (x0 - 0) = x0 from by ring,
    ← listMapSum_mul bs x0 (fun b => if b.1.isNone then (1 : Int) else 0),
    ← listMapSum_add, ← listMapSum_add, upperVals_sum_eq]
  apply congrArg List.sum
  apply List.map_congr_left
  intro b hb
  refine perSlot_total hacc hsorted ?_ ?_ (all_upper_some hupp) b hb
  · intro b' hb' l hl
    have := lower_mem_rtKeys hb' hl
    rw [hrt] at this
    exact this
  · intro b' hb' u hu
    have := upper_mem_rtKeys hb' hu
    rw [hrt] at this
    exact this

/-! ## Helpers for the boundary-budget analysis -/

theorem getD_zero_of_head {α : Type} {l : List α} {a : α} (h : l.head? = some a) (d : α) :
    l.getD 0 d = a := by
  cases l with
  | nil => cases h
  | cons x t =>
    rw [List.head?_cons] at h
    rw [← Option.some.inj h]
    rfl

theorem getD_of_getLast {α : Type} {l : List α} {a : α} (h : l.getLast? = some a) (d : α) :
    l.getD (l.length - 1) d = a := by
  rw [List.getD_eq_getElem?_getD, ← List.getLast?_eq_getElem?, h]
  rfl

theorem sorted_le_getLast {l : List Int} (hs : List.Pairwise (· < ·) l) {m : Int}
    (h : l.getLast? = some m) : ∀ k ∈ l, k ≤ m := by
  rcases List.getLast?_eq_some_iff.mp h with ⟨ys, rfl⟩
  intro k hk
  rcases List.mem_append.mp hk with hk | hk
  · have := (List.pairwise_append.mp hs).2.2 k hk m (by simp)
    omega
  · rw [List.mem_singleton.mp hk]

theorem takeWhile_of_all {α : Type} {p : α → Bool} :
    ∀ {l : List α}, (∀ a ∈ l, p a = true) → l.takeWhile p = l := by
  intro l
  induction l with
  | nil => intro _; rfl
  | cons a t ih =>
    intro h
    rw [List.takeWhile_cons, h a (by simp), if_pos rfl, ih fun a' ha' => h a' (by simp [ha'])]

theorem takeWhile_of_all_neg {α : Type} {p : α → Bool} :
    ∀ {l : List α}, (∀ a ∈ l, p a = false) → l.takeWhile p = [] := by
  intro l
  induction l with
  | nil => intro _; rfl
  | cons a t _ =>
    intro h
    rw [List.takeWhile_cons, h a (by simp)]
    rfl

theorem sums_le {bs : Bounds} (hacc : bs.any boundInvalid = false)
    (hl : nLowerUnbounded bs = 0) (hu : nUpperUnbounded bs = 0) :
    (lowerVals bs).sum ≤ (upperVals bs).sum := by
  rw [lowerVals_sum_eq, upperVals_sum_eq]
  apply List.sum_le_sum
  intro b hb
  obtain ⟨l, hbl⟩ := all_lower_some hl b hb
  obtain ⟨u, hbu⟩ := all_upper_some hu b hb
  rw [hbl, hbu]
  exact accepted_le hacc b hb l u hbl hbu

/-- When the rate at a lower-bound value `l` below the resolved water level is
zero, the slot must be degenerate: its upper bound is present and at most `l`. -/
theorem pin_lower_aux {bs : Bounds} (hacc : bs.any boundInvalid = false)
    {x0 r0 : Int} {rest : List (Int × Int)} (hrt : rTable bs = (x0, r0) :: rest) :
    ∀ b ∈ bs, ∀ l, b.1 = some l → l < (skipZeros (x0, r0) rest).1 →
      ∃ u, b.2 = some u ∧ u ≤ l := by
  intro b hb l hl hllt
  have hlk : l ∈ ((x0, r0) :: rest).map Prod.fst := by
    rw [← hrt]
    exact lower_mem_rtKeys hb hl
  rcases List.mem_map.mp hlk with ⟨kv, hkv, hkveq⟩
  have hsorted : List.Pairwise (· < ·) (((x0, r0) :: rest).map Prod.fst) := by
    rw [← hrt]
    exact (rTable_props bs).1
  have hz : kv.2 = 0 :=
    skipZeros_prior rest (x0, r0) hsorted kv hkv (by rw [hkveq]; exact hllt)
  have hkv2 : kv.2 = rateAt bs kv.1 :=
    ((rTable_props bs).2.1 kv (by rw [hrt]; exact hkv)).2
  have hrate0 : rateAt bs l = 0 := by
    rw [← hkveq, ← hkv2, hz]
  have hps := perSlot_zero_of_rateAt_zero hacc hrate0 b hb
  rcases b with ⟨b1, b2⟩
  cases hl
  rcases hb2 : b2 with _ | u
  · exfalso
    subst hb2
    have : ((if l ≤ l then 1 else 0) : Int) - 0 = 0 := hps
    rw [if_pos (le_refl l)] at this
    omega
  · subst hb2
    refine ⟨u, rfl, ?_⟩
    have : ((if l ≤ l then 1 else 0) : Int) - (if u ≤ l then 1 else 0) = 0 := hps
    rw [if_pos (le_refl l)] at this
    by_cases hul : u ≤ l
    · exact hul
    · rw [if_neg hul] at this
      omega

/-- When every slot's branch in the distributor produces `g b`, the integer
allocation is the pointwise map of `g`. -/
theorem intAllocGo_map (x : ℚ) (nf fl cl : Int) (g : Bound → Int) :
    ∀ (bs : Bounds) (c : Int),
      (∀ b ∈ bs,
        (lowerHit b x = true → b.1.getD 0 = g b) ∧
        (lowerHit b x = false → upperHit b x = true → b.2.getD 0 = g b) ∧
        (lowerHit b x = false → upperHit b x = false → fl = g b ∧ cl = g b)) →
      intAllocGo x nf fl cl bs c = bs.map g := by
  intro bs
  induction bs with
  | nil => intro c _; rfl
  | cons b rest ih =>
    intro c h
    obtain ⟨h1, h2, h3⟩ := h b (by simp)
    have hrest : ∀ b' ∈ rest, _ := fun b' hb' => h b' (by simp [hb'])
    by_cases hl : lowerHit b x = true
    · rw [show intAllocGo x nf fl cl (b :: rest) c =
        b.1.getD 0 :: intAllocGo x nf fl cl rest c from by simp [intAllocGo, hl]]
      rw [List.map_cons, h1 hl, ih c hrest]
    · by_cases hu : upperHit b x = true
      · rw [show intAllocGo x nf fl cl (b :: rest) c =
          b.2.getD 0 :: intAllocGo x nf fl cl rest c from by simp [intAllocGo, hl, hu]]
        rw [List.map_cons, h2 (Bool.of_not_eq_true hl) hu, ih c hrest]
      · rw [show intAllocGo x nf fl cl (b :: rest) c =
          (if c < nf then fl else cl) :: intAllocGo x nf fl cl rest (c + 1) from by
            simp [intAllocGo, hl, hu]]
        rw [List.map_cons, ih (c + 1) hrest]
        obtain ⟨hfl, hcl⟩ := h3 (Bool.of_not_eq_true hl) (Bool.of_not_eq_true hu)
        by_cases hc : c < nf
        · rw [if_pos hc, hfl]
        · rw [if_neg hc, hcl]

/-- `_solve_x` on a bounded allocator with the budget below the first key:
`InsufficientBudgetError` when the aggregate lower bound is present. -/
theorem solveX_insufficient (bs : Bounds) (budget : Int)
    (hunb : isUnbounded bs = false)
    (hbi : bisectRight ((xTable bs).map (fun e => e.1)) budget = 0)
    (hlb : nLowerUnbounded bs = 0) :
    solveX (mkAllocator bs) budget = .error .insufficientBudgetError := by
  have hsome : (lowerBoundAgg bs).isSome = true := by
    unfold lowerBoundAgg
    rw [if_pos hlb]
    rfl
  simp only [solveX, mkAllocator, solveTable]
  rw [hunb]
  simp only [Bool.false_eq_true, if_false]
  rw [hbi]
  rw [if_pos (by norm_num), if_pos hsome]

/-- `_solve_x` on a bounded allocator when the budget lands in region `n` and
the truthy upper guard does not fire: the interior/right formula. -/
theorem solveX_at_index (bs : Bounds) (budget : Int) (n : Nat)
    (hunb : isUnbounded bs = false)
    (hbi : bisectRight ((xTable bs).map (fun e => e.1)) budget = n + 1)
    (hut : upperTruthy (upperBoundAgg bs) budget = false) :
    solveX (mkAllocator bs) budget = .ok
      (solveXFormula (((xTable bs).map (fun e => e.2)).getD n (0, 0)).1
        (((xTable bs).map (fun e => e.2)).getD n (0, 0)).2 budget
        (((xTable bs).map (fun e => e.1)).getD n 0),
       (((xTable bs).map (fun e => e.2)).getD n (0, 0)).2) := by
  simp only [solveX, mkAllocator, solveTable]
  rw [hunb]
  simp only [Bool.false_eq_true, if_false]
  rw [hbi]
  rw [if_neg (by push_cast; omega), hut]
  simp only [Bool.false_eq_true, if_false]
  rw [show (((n + 1 : Nat) : Int) - 1).toNat = n from by omega]

/-- With the budget at or above the first key, `_solve_x` never raises
`InsufficientBudgetError`. -/
theorem solveX_pos_cases (bs : Bounds) (budget : Int)
    (hunb : isUnbounded bs = false)
    (hbi : bisectRight ((xTable bs).map (fun e => e.1)) budget ≠ 0) :
    solveX (mkAllocator bs) budget = .error .excessBudgetError ∨
    ∃ p, solveX (mkAllocator bs) budget = .ok p := by
  obtain ⟨n, hn⟩ : ∃ n, bisectRight ((xTable bs).map (fun e => e.1)) budget = n + 1 :=
    ⟨_, (Nat.succ_pred_eq_of_pos (Nat.pos_of_ne_zero hbi)).symm⟩
  by_cases hut : upperTruthy (upperBoundAgg bs) budget = true
  · left
    simp only [solveX, mkAllocator, solveTable]
    rw [hunb]
    simp only [Bool.false_eq_true, if_false]
    rw [hn]
    rw [if_neg (by push_cast; omega), hut]
    simp only [if_true]
  · right
    exact ⟨_, solveX_at_index bs budget n hunb hn (Bool.of_not_eq_true hut)⟩

theorem xTable_head (bs : Bounds) (hacc : bs.any boundInvalid = false)
    {x0 r0 : Int} {rest : List (Int × Int)} (hrt : rTable bs = (x0, r0) :: rest) :
    (xTable bs).head? =
      some (bLowerSum bs + (x0 - 0) * (nLowerUnbounded bs : Int), skipZeros (x0, r0) rest) := by
  have hsorted : List.Pairwise (· < ·) (((x0, r0) :: rest).map Prod.fst) := by
    rw [← hrt]
    exact (rTable_props bs).1
  rw [xTable_eq_cons hrt]
  exact passC_from_singleton rest _ x0 r0 (pairwise_keys_cons hsorted).2
    (fun e he => (pairwise_keys_cons hsorted).1 e he)
    (rTable_vals_nonneg hacc (x0, r0) (by rw [hrt]; simp))
    (fun kv hkv => rTable_vals_nonneg hacc kv (by rw [hrt]; simp [hkv]))

theorem xTable_last (bs : Bounds) (hacc : bs.any boundInvalid = false)
    {x0 r0 : Int} {rest : List (Int × Int)} (hrt : rTable bs = (x0, r0) :: rest) :
    ∃ xM rM, ((x0, r0) :: rest).getLast? = some (xM, rM) ∧
      (xTable bs).getLast? =
        some (bLowerSum bs + (x0 - 0) * (nLowerUnbounded bs : Int) + teleSum x0 r0 rest,
          (xM, rM)) := by
  have hsorted : List.Pairwise (· < ·) (((x0, r0) :: rest).map Prod.fst) := by
    rw [← hrt]
    exact (rTable_props bs).1
  cases rest with
  | nil =>
    refine ⟨x0, r0, rfl, ?_⟩
    rw [xTable_eq_cons hrt]
    show ([(bLowerSum bs + (x0 - 0) * (nLowerUnbounded bs : Int), (x0, r0))] :
      List (Int × Int × Int)).getLast? = _
    rw [List.getLast?_singleton]
    rw [show bLowerSum bs + (x0 - 0) * (nLowerUnbounded bs : Int) + teleSum x0 r0 [] =
      bLowerSum bs + (x0 - 0) * (nLowerUnbounded bs : Int) from by
        show _ + 0 = _
        ring]
  | cons y rest' =>
    have hlsome : ((y :: rest').getLast?).isSome := by simp
    obtain ⟨⟨xM, rM⟩, hlast⟩ := Option.isSome_iff_exists.mp hlsome
    refine ⟨xM, rM, by rw [List.getLast?_cons_cons]; exact hlast, ?_⟩
    rw [xTable_eq_cons hrt]
    exact passC_getLast (y :: rest') _ x0 r0 _ xM rM hlast
      (pairwise_keys_cons hsorted).2
      (fun e he => (pairwise_keys_cons hsorted).1 e he)
      (rTable_vals_nonneg hacc (x0, r0) (by rw [hrt]; simp))
      (fun kv hkv => rTable_vals_nonneg hacc kv (by rw [hrt]; simp [hkv]))
      (by simp) (by simp)

/-- Claim C4 (amended): for every NON-EMPTY bounds sequence accepted by
construction in which all lower bounds are present, integer solve raises
`InsufficientBudgetError` iff `budget < Σ lᵢ`; a budget of exactly `Σ lᵢ`
succeeds and pins every slot to its lower bound, and when additionally all
upper bounds are present a budget of exactly `Σ uᵢ` succeeds and pins every
slot to its upper bound. -/
theorem C4_amended (bs : Bounds) (A : EquitableBudgetAllocator)
    (hA : construct bs = .ok A) (hne : bs ≠ []) (hall : nLowerUnbounded bs = 0) :
    ∀ budget : Int,
      (solveIntA A budget = .error .insufficientBudgetError ↔
        budget < (lowerVals bs).sum) ∧
      (budget = (lowerVals bs).sum →
        solveIntA A budget = .ok (bs.map fun b => b.1.getD 0)) ∧
      (nUpperUnbounded bs = 0 → budget = (upperVals bs).sum →
        solveIntA A budget = .ok (bs.map fun b => b.2.getD 0)) := by
  obtain ⟨hAeq, hacc⟩ := construct_ok hA
  subst hAeq
  have hnotunb : isUnbounded bs = false := by
    cases bs with
    | nil => exact absurd rfl hne
    | cons b tl =>
      obtain ⟨l, hl⟩ := all_lower_some hall b (by simp)
      simp [isUnbounded, hl]
  obtain ⟨b0, hb0⟩ := List.exists_mem_of_ne_nil bs hne
  obtain ⟨l0, hl0⟩ := all_lower_some hall b0 hb0
  have hrtne : rTable bs ≠ [] := by
    intro h
    have hm := lower_mem_rtKeys hb0 hl0
    rw [h] at hm
    simp at hm
  rcases hrt : rTable bs with _ | ⟨⟨x0, r0⟩, rest⟩
  · exact absurd hrt hrtne
  have hrt_sorted : List.Pairwise (· < ·) (((x0, r0) :: rest).map Prod.fst) := by
    rw [← hrt]
    exact (rTable_props bs).1
  have hb1 : bLowerSum bs + (x0 - 0) * (nLowerUnbounded bs : Int) = (lowerVals bs).sum := by
    rw [hall, bLowerSum_eq]
    push_cast
    ring
  have hhead := xTable_head bs hacc hrt
  have hhead' : (xTable bs).head? = some ((lowerVals bs).sum, skipZeros (x0, r0) rest) := by
    rw [hhead, hb1]
  rcases hxt : xTable bs with _ | ⟨xt0, xtrest⟩
  · rw [hxt] at hhead'
    simp at hhead'
  have hxt0 : xt0 = ((lowerVals bs).sum, skipZeros (x0, r0) rest) := by
    rw [hxt, List.head?_cons] at hhead'
    exact Option.some.inj hhead'
  have hkeyseq : (xTable bs).map (fun e => e.1) =
      (lowerVals bs).sum :: xtrest.map (fun e => e.1) := by
    rw [hxt, hxt0]
    rfl
  have hks : List.Pairwise (· < ·) ((xTable bs).map fun e => e.1) :=
    xTable_keys_sorted bs hacc
  have hks2 : List.Pairwise (· < ·)
      ((lowerVals bs).sum :: xtrest.map (fun e => e.1)) := by
    rw [← hkeyseq]
    exact hks
  have htail : ∀ k ∈ xtrest.map (fun e => e.1), (lowerVals bs).sum < k :=
    (List.pairwise_cons.mp hks2).1
  intro budget
  refine ⟨?_, ?_, ?_⟩
  · -- (a) InsufficientBudgetError iff budget < Σ lᵢ
    by_cases hlt : budget < (lowerVals bs).sum
    · have hbi0 : bisectRight ((xTable bs).map fun e => e.1) budget = 0 := by
        rw [hkeyseq]
        unfold bisectRight
        simp only [List.takeWhile_cons]
        rw [show (decide ((lowerVals bs).sum ≤ budget)) = false from by
          simp only [decide_eq_false_iff_not]; omega]
        simp
      have herr := solveX_insufficient bs budget hnotunb hbi0 hall
      have heq : solveIntA (mkAllocator bs) budget = .error .insufficientBudgetError := by
        unfold solveIntA
        rw [herr]
      exact ⟨fun _ => hlt, fun _ => heq⟩
    · have hbine : bisectRight ((xTable bs).map fun e => e.1) budget ≠ 0 := by
        rw [hkeyseq]
        unfold bisectRight
        simp only [List.takeWhile_cons]
        rw [show (decide ((lowerVals bs).sum ≤ budget)) = true from by
          simp only [decide_eq_true_eq]; omega]
        simp
      rcases solveX_pos_cases bs budget hnotunb hbine with hca | ⟨⟨px, pr⟩, hca⟩
      · have heq : solveIntA (mkAllocator bs) budget = .error .excessBudgetError := by
          unfold solveIntA
          rw [hca]
        refine ⟨fun h => ?_, fun h => absurd h hlt⟩
        rw [heq] at h
        exact SolverErr.noConfusion (Except.error.inj h)
      · have heq : solveIntA (mkAllocator bs) budget = .ok (integerAllocations bs px pr) := by
          unfold solveIntA
          rw [hca]
          rfl
        refine ⟨fun h => ?_, fun h => absurd h hlt⟩
        rw [heq] at h
        exact Except.noConfusion h
  · -- (b) budget = Σ lᵢ pins every slot to its lower bound
    intro hbud
    subst hbud
    have hbiB : bisectRight ((xTable bs).map fun e => e.1) ((lowerVals bs).sum) = 0 + 1 := by
      rw [hkeyseq]
      unfold bisectRight
      simp only [List.takeWhile_cons]
      rw [show (decide ((lowerVals bs).sum ≤ (lowerVals bs).sum)) = true from by simp]
      rw [if_pos rfl]
      rw [takeWhile_of_all_neg (fun k hk => by
        simp only [decide_eq_false_iff_not]
        have := htail k hk
        omega)]
      rfl
    have hutB : upperTruthy (upperBoundAgg bs) ((lowerVals bs).sum) = false := by
      by_cases hnu0 : nUpperUnbounded bs = 0
      · have hle := sums_le hacc hall hnu0
        simp only [upperBoundAgg, if_pos hnu0, upperTruthy, Bool.and_eq_false_iff,
          decide_eq_false_iff_not]
        exact Or.inr (by omega)
      · simp [upperTruthy, upperBoundAgg, hnu0]
    have hsx := solveX_at_index bs ((lowerVals bs).sum) 0 hnotunb hbiB hutB
    have hvals : ((xTable bs).map fun e => e.2).getD 0 (0, 0) = skipZeros (x0, r0) rest := by
      rw [hxt, hxt0]
      rfl
    have hkey0 : ((xTable bs).map fun e => e.1).getD 0 0 = (lowerVals bs).sum := by
      rw [hkeyseq]
      rfl
    rw [hvals, hkey0] at hsx
    have hform : solveXFormula (skipZeros (x0, r0) rest).1 (skipZeros (x0, r0) rest).2
        ((lowerVals bs).sum) ((lowerVals bs).sum) = ((skipZeros (x0, r0) rest).1 : ℚ) := by
      unfold solveXFormula
      split_ifs with h
      · rfl
      · rw [sub_self, Int.cast_zero, zero_div, add_zero]
    have hfl : ((skipZeros (x0, r0) rest).1 : ℚ).floor = (skipZeros (x0, r0) rest).1 := by
      rw [ratFloor_eq, Int.floor_intCast]
    have hcl : ((skipZeros (x0, r0) rest).1 : ℚ).ceil = (skipZeros (x0, r0) rest).1 := by
      rw [ratCeil_eq, Int.ceil_intCast]
    have hmain : integerAllocations bs ((skipZeros (x0, r0) rest).1 : ℚ)
        ((skipZeros (x0, r0) rest).2) = bs.map (fun b => b.1.getD 0) := by
      refine intAllocGo_map _ _ _ _ _ bs 0 ?_
      intro b hb
      obtain ⟨l, hl⟩ := all_lower_some hall b hb
      refine ⟨fun _ => rfl, fun h1 h2 => ?_, fun h1 h2 => ?_⟩
      · obtain ⟨u, hu, hxu⟩ := upperHit_eq_true h2
        have hlxi : l ≤ (skipZeros (x0, r0) rest).1 := by
          exact_mod_cast lowerHit_eq_false h1 l hl
        have huxi : u < (skipZeros (x0, r0) rest).1 := by exact_mod_cast hxu
        have hlu : l ≤ u := accepted_le hacc b hb l u hl hu
        obtain ⟨u', hu', hule⟩ := pin_lower_aux hacc hrt b hb l hl (by omega)
        rw [hu] at hu'
        have huu : u = u' := Option.some.inj hu'
        simp only [hu, hl, Option.getD_some]
        omega
      · have hlxi : l ≤ (skipZeros (x0, r0) rest).1 := by
          exact_mod_cast lowerHit_eq_false h1 l hl
        have hleq : l = (skipZeros (x0, r0) rest).1 := by
          by_contra hne2
          obtain ⟨u, hu, hule⟩ := pin_lower_aux hacc hrt b hb l hl (by omega)
          have hxu : (skipZeros (x0, r0) rest).1 ≤ u := by
            exact_mod_cast upperHit_eq_false h2 u hu
          omega
        constructor
        · rw [hfl]
          simp only [hl, Option.getD_some]
          omega
        · rw [hcl]
          simp only [hl, Option.getD_some]
          omega
    unfold solveIntA
    rw [hsx]
    show Except.ok (integerAllocations bs
        (solveXFormula (skipZeros (x0, r0) rest).1 (skipZeros (x0, r0) rest).2
          ((lowerVals bs).sum) ((lowerVals bs).sum))
        ((skipZeros (x0, r0) rest).2)) = Except.ok (bs.map fun b => b.1.getD 0)
    rw [hform, hmain]
  · -- (c) all uppers present and budget = Σ uᵢ pins every slot to its upper bound
    intro hnu hbud
    subst hbud
    obtain ⟨xM, rM, hrtlast, hxtlast⟩ := xTable_last bs hacc hrt
    have hKL := keyLast_eq_upperSum bs hacc hnu hrt
    have hkeyslast : ((xTable bs).map (fun e => e.1)).getLast? =
        some ((upperVals bs).sum) := by
      rw [List.getLast?_map, hxtlast, Option.map_some']
      show some (bLowerSum bs + (x0 - 0) * (nLowerUnbounded bs : Int) + teleSum x0 r0 rest) = _
      rw [hKL]
    have hvalslast : ((xTable bs).map (fun e => e.2)).getLast? = some (xM, rM) := by
      rw [List.getLast?_map, hxtlast]
      rfl
    have hlastk : (((x0, r0) :: rest).map Prod.fst).getLast? = some xM := by
      rw [List.getLast?_map, hrtlast]
      rfl
    have hlen : (xTable bs).length = xtrest.length + 1 := by
      rw [hxt]
      rfl
    have hball : ∀ k ∈ (xTable bs).map (fun e => e.1), k ≤ (upperVals bs).sum :=
      sorted_le_getLast hks hkeyslast
    have hbiC : bisectRight ((xTable bs).map fun e => e.1) ((upperVals bs).sum) =
        xtrest.length + 1 := by
      unfold bisectRight
      rw [takeWhile_of_all (fun k hk => by
        simp only [decide_eq_true_eq]
        exact hball k hk)]
      rw [List.length_map, hlen]
    have hutC : upperTruthy (upperBoundAgg bs) ((upperVals bs).sum) = false := by
      simp [upperTruthy, upperBoundAgg, hnu]
    have hsxC := solveX_at_index bs ((upperVals bs).sum) xtrest.length hnotunb hbiC hutC
    have hvalsD : ((xTable bs).map fun e => e.2).getD xtrest.length (0, 0) = (xM, rM) := by
      have hl2 : ((xTable bs).map fun e => e.2).length - 1 = xtrest.length := by
        rw [List.length_map, hlen]
        omega
      rw [← hl2]
      exact getD_of_getLast hvalslast (0, 0)
    have hkeyD : ((xTable bs).map fun e => e.1).getD xtrest.length 0 =
        (upperVals bs).sum := by
      have hl1 : ((xTable bs).map fun e => e.1).length - 1 = xtrest.length := by
        rw [List.length_map, hlen]
        omega
      rw [← hl1]
      exact getD_of_getLast hkeyslast 0
    rw [hvalsD, hkeyD] at hsxC
    have hformC : solveXFormula xM rM ((upperVals bs).sum) ((upperVals bs).sum) =
        ((xM : Int) : ℚ) := by
      unfold solveXFormula
      split_ifs with h
      · rfl
      · rw [sub_self, Int.cast_zero, zero_div, add_zero]
    have hflC : ((xM : Int) : ℚ).floor = xM := by
      rw [ratFloor_eq, Int.floor_intCast]
    have hclC : ((xM : Int) : ℚ).ceil = xM := by
      rw [ratCeil_eq, Int.ceil_intCast]
    have hmainC : integerAllocations bs ((xM : Int) : ℚ) rM =
        bs.map (fun b => b.2.getD 0) := by
      refine intAllocGo_map _ _ _ _ _ bs 0 ?_
      intro b hb
      obtain ⟨u, hu⟩ := all_upper_some hnu b hb
      have humem : u ∈ ((x0, r0) :: rest).map Prod.fst := by
        rw [← hrt]
        exact upper_mem_rtKeys hb hu
      have hux : u ≤ xM := sorted_le_getLast hrt_sorted hlastk u humem
      refine ⟨fun h1 => ?_, fun _ _ => rfl, fun h1 h2 => ?_⟩
      · obtain ⟨l', hl', hx⟩ := lowerHit_eq_true h1
        have hxl : xM < l' := by exact_mod_cast hx
        have hlu : l' ≤ u := accepted_le hacc b hb l' u hl' hu
        exact absurd hxl (by omega)
      · have hxu : xM ≤ u := by exact_mod_cast upperHit_eq_false h2 u hu
        simp only [hflC, hclC, hu, Option.getD_some]
        omega
    unfold solveIntA
    rw [hsxC]
    show Except.ok (integerAllocations bs
        (solveXFormula xM rM ((upperVals bs).sum) ((upperVals bs).sum)) rM) =
      Except.ok (bs.map fun b => b.2.getD 0)
    rw [hformC, hmainC]

/-- Witness for C4 (amended) at `bounds = ((1, 2),)`, `budget = 2`: the
hypotheses hold and the budget equal to the aggregate upper bound pins the
single slot to its upper bound `2`. -/
theorem C4_amended_witness :
    ([((some 1, some 2) : Bound)] : Bounds) ≠ [] ∧
    nLowerUnbounded [((some 1, some 2) : Bound)] = 0 ∧
    solveIntA (mkAllocator [((some 1, some 2) : Bound)]) 2 = .ok [2] :=
  ⟨by decide, by decide,
    (C4_amended [((some 1, some 2) : Bound)] (mkAllocator [((some 1, some 2) : Bound)])
      (by decide) (by decide) (by decide) 2).2.2 (by decide) (by decide)⟩

end Eqint
